import Mathlib

/-!
Verification development for the Circe schematic-capture editing engine.

The embedding below translates the schematic editing core: the integer
schematic-space geometry (`SSPoint`, `SSTransform`, `SSBox`, following the
semantics of the `euclid` crate types used by `src/transforms.rs`), the nets
graph, the device registry, and the interaction state machine of
`src/schematic.rs`.

The sources of this repository present in `src/` are the authority:
`schematic.rs`, `schematic/devices/deviceinstance.rs`,
`schematic/devices/devicetype.rs`, `schematic/devices.rs`,
`schematic/nets/graph/vertex.rs`, `viewport.rs`.  The nets-graph module
(`Nets`, `NetEdge`, `prune`, `merge`, `route`, `net_at`, the `SchematicSet`
impls) and the revision of the `Devices` registry that `schematic.rs` calls
into are not among those files; definitions for them are modelled from the
spec and carry a doc comment starting `Modelled from the spec:`.
-/

namespace Circe

/-- Integer schematic-space grid point (`SSPoint` of `src/transforms.rs`,
an `euclid::Point2D<i16, SchematicSpace>`; embedded with unbounded `Int`
coordinates, no claim under check exercises i16 overflow). -/
structure SSPoint where
  x : Int
  y : Int
deriving DecidableEq, Repr

/-- Componentwise addition of a point and a vector (euclid `+`). -/
def SSPoint.add (a b : SSPoint) : SSPoint := ⟨a.x + b.x, a.y + b.y⟩

/-- Componentwise subtraction, giving the vector from `b` to `a` (euclid `-`). -/
def SSPoint.sub (a b : SSPoint) : SSPoint := ⟨a.x - b.x, a.y - b.y⟩

/-- Lexicographic order on grid points; `NetVertex` ordering from
`src/schematic/nets/graph/vertex.rs` (`(x, y)` tuple comparison). -/
def SSPoint.lexLe (a b : SSPoint) : Bool :=
  a.x < b.x || (a.x == b.x && a.y ≤ b.y)

/-- Lexicographic minimum of two points. -/
def SSPoint.lexMin (a b : SSPoint) : SSPoint := if SSPoint.lexLe a b then a else b

/-- Lexicographic maximum of two points. -/
def SSPoint.lexMax (a b : SSPoint) : SSPoint := if SSPoint.lexLe a b then b else a

/-- Integer 2D affine transform (`SSTransform` of `src/transforms.rs`, an
`euclid::Transform2D<i16, SchematicSpace, SchematicSpace>`): row-vector
convention, entries `m11 m12 / m21 m22 / m31 m32`. -/
structure SSTransform where
  m11 : Int
  m12 : Int
  m21 : Int
  m22 : Int
  m31 : Int
  m32 : Int
deriving DecidableEq, Repr

/-- euclid `Transform2D::transform_point`:
`(x, y) ↦ (m11·x + m21·y + m31, m12·x + m22·y + m32)`. -/
def SSTransform.transformPoint (t : SSTransform) (p : SSPoint) : SSPoint :=
  ⟨t.m11 * p.x + t.m21 * p.y + t.m31, t.m12 * p.x + t.m22 * p.y + t.m32⟩

/-- euclid `Transform2D::identity`. -/
def SSTransform.identity : SSTransform := ⟨1, 0, 0, 1, 0, 0⟩

/-- euclid `Transform2D::then`: `a.andThen b` applies `a` first, then `b`
(matrix product in row-vector convention). -/
def SSTransform.andThen (a b : SSTransform) : SSTransform :=
  ⟨a.m11 * b.m11 + a.m12 * b.m21,
   a.m11 * b.m12 + a.m12 * b.m22,
   a.m21 * b.m11 + a.m22 * b.m21,
   a.m21 * b.m12 + a.m22 * b.m22,
   a.m31 * b.m11 + a.m32 * b.m21 + b.m31,
   a.m31 * b.m12 + a.m32 * b.m22 + b.m32⟩

/-- euclid `Transform2D::pre_translate`: translate by `v`, then apply `t`. -/
def SSTransform.preTranslate (t : SSTransform) (v : SSPoint) : SSTransform :=
  (SSTransform.mk 1 0 0 1 v.x v.y).andThen t

/-- euclid `Transform2D::then_translate`: apply `t`, then translate by `v`. -/
def SSTransform.thenTranslate (t : SSTransform) (v : SSPoint) : SSTransform :=
  t.andThen (SSTransform.mk 1 0 0 1 v.x v.y)

/-- Modelled from the spec: `transforms::SST_CWR` (the 90°-clockwise rotation
constant of the absent `src/transforms.rs`), per the state-machine table
entry "rotate command: `t := t ∘ rotate90cw`": `(x, y) ↦ (y, -x)`. -/
def SST_CWR : SSTransform := ⟨0, -1, 1, 0, 0, 0⟩

/-- Axis-aligned box over grid points (`SSBox` of `src/transforms.rs`, an
`euclid::Box2D`; `minP`/`maxP` are stored as constructed, unnormalized,
exactly as `euclid::Box2D::new` does). -/
structure SSBox where
  minP : SSPoint
  maxP : SSPoint
deriving DecidableEq, Repr

/-- euclid `Box2D::default`. -/
def SSBox.default : SSBox := ⟨⟨0, 0⟩, ⟨0, 0⟩⟩

/-- Normalized box spanning two points (euclid `Box2D::from_points` on a
two-point corner list). -/
def SSBox.fromPointsPair (a b : SSPoint) : SSBox :=
  ⟨⟨min a.x b.x, min a.y b.y⟩, ⟨max a.x b.x, max a.y b.y⟩⟩

/-- euclid `Box2D::inflate`. -/
def SSBox.inflate (b : SSBox) (dx dy : Int) : SSBox :=
  ⟨⟨b.minP.x - dx, b.minP.y - dy⟩, ⟨b.maxP.x + dx, b.maxP.y + dy⟩⟩

/-- Closed containment of a grid point in a box.  Modelled from the spec:
hit testing uses containment of the cursor point in an element's bounds;
the claims under check do not depend on the open/closed boundary choice. -/
def SSBox.containsPt (b : SSBox) (p : SSPoint) : Bool :=
  b.minP.x ≤ p.x && p.x ≤ b.maxP.x && b.minP.y ≤ p.y && p.y ≤ b.maxP.y

/-- Closed box-box intersection test (euclid `Box2D::intersects`). -/
def SSBox.intersects (a b : SSBox) : Bool :=
  a.minP.x ≤ b.maxP.x && b.minP.x ≤ a.maxP.x &&
  a.minP.y ≤ b.maxP.y && b.minP.y ≤ a.maxP.y

/-- euclid `Transform2D::outer_transformed_box`: transform the four corners
and take their bounding box (componentwise min / max). -/
def SSTransform.outerTransformedBox (t : SSTransform) (b : SSBox) : SSBox :=
  let p1 := t.transformPoint b.minP
  let p2 := t.transformPoint b.maxP
  let p3 := t.transformPoint ⟨b.minP.x, b.maxP.y⟩
  let p4 := t.transformPoint ⟨b.maxP.x, b.minP.y⟩
  ⟨⟨min (min p1.x p2.x) (min p3.x p4.x), min (min p1.y p2.y) (min p3.y p4.y)⟩,
   ⟨max (max p1.x p2.x) (max p3.x p4.x), max (max p1.y p2.y) (max p3.y p4.y)⟩⟩

/-- `SchematicState::move_transform` (src/schematic.rs:78-83):
`sst.pre_translate(-ssp0).then_translate(ssp0).then_translate(ssp1 - ssp0)`. -/
def moveTransform (ssp0 ssp1 : SSPoint) (sst : SSTransform) : SSTransform :=
  ((sst.preTranslate ⟨-ssp0.x, -ssp0.y⟩).thenTranslate ⟨ssp0.x, ssp0.y⟩).thenTranslate
    (ssp1.sub ssp0)

/-- Modelled from the spec: `NetEdge` of the absent nets module — an edge of
the persistent nets graph, carrying its two vertices, an optional net label
(§3 "NetEdge"), and the transient `tentative` / `selected` flags.  The Rust
`Option<Rc<String>>` label is embedded as `Option String`. -/
structure NetEdge where
  src : SSPoint
  dst : SSPoint
  label : Option String
  tentative : Bool
  selected : Bool
deriving DecidableEq, Repr

/-- The unordered vertex-pair identity of an edge (§3: "Edge identity is the
unordered vertex pair"), represented by the ordered `(src, dst)` key - the
graph stores edges with a deterministic orientation. -/
def NetEdge.key (e : NetEdge) : SSPoint × SSPoint := (e.src, e.dst)

/-- Hit test of a cursor point against an edge: containment in the bounding
box spanned by the two endpoints (edges are axis-aligned, so this is the
segment).  Modelled from the spec (§4.2 hit testing). -/
def NetEdge.containsPt (e : NetEdge) (p : SSPoint) : Bool :=
  (SSBox.fromPointsPair e.src e.dst).containsPt p

/-- Endpoint transformation of an edge (net-edge part of `Interactive`). -/
def NetEdge.transformE (e : NetEdge) (t : SSTransform) : NetEdge :=
  { e with src := t.transformPoint e.src, dst := t.transformPoint e.dst }

/-- Modelled from the spec: the `Nets` persistent graph of the absent nets
module, embedded as the list of its edges in deterministic iteration order
(vertices are the edge endpoints; a stray degree-0 vertex is not
representable and its removal by `prune` is therefore implicit). -/
structure Nets where
  edges : List NetEdge
deriving DecidableEq, Repr

/-- Modelled from the spec: `Nets::clear` (used on the wiring scratch graph). -/
def Nets.clearAll (_ : Nets) : Nets := ⟨[]⟩

/-- Modelled from the spec: `Nets::clear_tentatives`. -/
def Nets.clearT (n : Nets) : Nets :=
  ⟨n.edges.map (fun e => { e with tentative := false })⟩

/-- Modelled from the spec: `Nets::occupies_ssp` — true if any vertex equals
the point (§4.2). -/
def Nets.occupiesSsp (n : Nets) (p : SSPoint) : Bool :=
  n.edges.any (fun e => e.src == p || e.dst == p)

/-- Modelled from the spec: `Nets::delete_edge` — remove the edge with the
given vertex pair. -/
def Nets.deleteEdge (n : Nets) (e : NetEdge) : Nets :=
  ⟨n.edges.filter (fun x => !(x.src == e.src && x.dst == e.dst))⟩

/-- Modelled from the spec: `petgraph::GraphMap::add_edge` as used by the
nets graph — replace the weight of the edge keyed by the vertex pair when
present, insert the edge otherwise. -/
def Nets.addEdge (n : Nets) (e : NetEdge) : Nets :=
  if n.edges.any (fun x => x.src == e.src && x.dst == e.dst) then
    ⟨n.edges.map (fun x => if x.src == e.src && x.dst == e.dst then e else x)⟩
  else ⟨n.edges ++ [e]⟩

/-- Modelled from the spec: `Nets::transform` as called by
`Schematic::move_selected` (src/schematic.rs:311-313) — remove the selected
edge by its vertex pair, transform its endpoints, re-insert it. -/
def Nets.transformEdge (n : Nets) (e : NetEdge) (t : SSTransform) : Nets :=
  (n.deleteEdge e).addEdge (e.transformE t)

/-- Modelled from the spec: `Nets::route` (§4.2) — append to the scratch
graph a 1-segment path when the two points are axis-aligned, else the
2-segment horizontal-then-vertical path (tie-break: horizontal first); a
zero-length request appends nothing. -/
def Nets.route (n : Nets) (a b : SSPoint) : Nets :=
  if a == b then n
  else if a.x == b.x || a.y == b.y then
    ⟨n.edges ++ [⟨a, b, none, false, false⟩]⟩
  else
    ⟨n.edges ++ [⟨a, ⟨b.x, a.y⟩, none, false, false⟩, ⟨⟨b.x, a.y⟩, b, none, false, false⟩]⟩

/-- Modelled from the spec: `Nets::tentatives_by_ssbox` — set the tentative
flag of every edge whose bounds intersect the box. -/
def Nets.tentativesBySsbox (n : Nets) (ssb : SSBox) : Nets :=
  ⟨n.edges.map (fun e =>
    if (SSBox.fromPointsPair e.src e.dst).intersects ssb then
      { e with tentative := true }
    else e)⟩

/-- Modelled from the spec: `Nets::tentatives` — the edges whose tentative
flag is set, in iteration order. -/
def Nets.tentatives (n : Nets) : List NetEdge :=
  n.edges.filter (fun e => e.tentative)

/-- Modelled from the spec: `Nets::net_at` (§4.2) — the label of the
component containing the point; the graph is labeled by `prune` /
`pre_netlist` before this query, so the label of any edge containing the
point answers it (fallback name for an unlabeled or vacant point). -/
def Nets.netAt (n : Nets) (p : SSPoint) : String :=
  match n.edges.find? (fun e => e.containsPt p) with
  | some e => match e.label with
    | some l => l
    | none => "net0"
  | none => "net0"

/-- `Port` of src/schematic/devices/devicetype.rs: name and grid offset from
the instance origin. -/
structure Port where
  name : String
  offset : SSPoint
deriving DecidableEq, Repr

/-- `Graphics` of src/schematic/devices/devicetype.rs restricted to the
fields the editing engine reads: the ordered port list and the grid-unit
bounding box (the f32 symbol polylines are rendering-only and omitted). -/
structure Graphics where
  ports : List Port
  bounds : SSBox
deriving DecidableEq, Repr

/-- `Graphics::default_r` (src/schematic/devices/devicetype.rs:90-112):
ports `+` at (0,3) and `-` at (0,-3), bounds corners (-2,3) and (2,-3). -/
def graphicsR : Graphics :=
  ⟨[⟨"+", ⟨0, 3⟩⟩, ⟨"-", ⟨0, -3⟩⟩], ⟨⟨-2, 3⟩, ⟨2, -3⟩⟩⟩

/-- `Graphics::default_gnd` (src/schematic/devices/devicetype.rs:113-133):
port `gnd` at (0,2), bounds corners (-1,2) and (1,-2). -/
def graphicsGnd : Graphics :=
  ⟨[⟨"gnd", ⟨0, 2⟩⟩], ⟨⟨-1, 2⟩, ⟨1, -2⟩⟩⟩

/-- Modelled from the spec: the voltage-source template of the absent
device-type module (§1 lists it as the third instantiable class); two ports
like the resistor. -/
def graphicsVs : Graphics :=
  ⟨[⟨"+", ⟨0, 3⟩⟩, ⟨"-", ⟨0, -3⟩⟩], ⟨⟨-2, 3⟩, ⟨2, -3⟩⟩⟩

/-- Modelled from the spec: `DeviceClass` of the absent device-type module,
reduced to the capability interface the engine reads (§9: "a shared
capability interface (geometry, ports, parameter-summary, spice-line)"):
the shared graphics template, the NgSpice id letter, and the rendered
parameter summary. -/
structure DeviceClass where
  graphics : Graphics
  idPfx : String
  paramSummary : String
deriving DecidableEq, Repr

/-- Resistor class with its template from src and default parameter text. -/
def classR : DeviceClass := ⟨graphicsR, "R", "1000"⟩

/-- Ground class with its template from src. -/
def classGnd : DeviceClass := ⟨graphicsGnd, "V", "0"⟩

/-- Voltage-source class (template modelled from the spec). -/
def classVs : DeviceClass := ⟨graphicsVs, "V", "3.3"⟩

/-- `Identifier` of src/schematic/devices/deviceinstance.rs:20-27: class
prefix (`idPfx` embeds the Rust field `id_prefix`), ordinal watermark, and
an optional user-supplied custom string. -/
structure Identifier where
  idPfx : String
  wm : Nat
  custom : Option String
deriving DecidableEq, Repr

/-- `Identifier::ng_id` (src/schematic/devices/deviceinstance.rs:40-49):
start from the prefix, then append the custom string when present, else the
decimal rendering of the watermark. -/
def Identifier.ngId (idn : Identifier) : String :=
  let ret := idn.idPfx
  match idn.custom with
  | some s => ret ++ s
  | none => ret ++ Nat.repr idn.wm

/-- `Identifier::new_with_prefix_ord` (deviceinstance.rs:51-53). -/
def Identifier.newWithPfxOrd (pfx : String) (wm : Nat) : Identifier :=
  ⟨pfx, wm, none⟩

/-- `Interactable` of src/schematic/devices.rs:23-28: cached bounds plus the
tentative / selected flags. -/
structure Interactable where
  bounds : SSBox
  tentative : Bool
  selected : Bool
deriving DecidableEq, Repr

/-- `Interactable::new` (src/schematic/devices.rs:30-34). -/
def Interactable.new : Interactable := ⟨SSBox.default, false, false⟩

/-- `Device` of src/schematic/devices/deviceinstance.rs:66-82 restricted to
the engine-visible fields: identifier, interactable, transform, class, and
the per-port net names collected by `spice_line` (the f32 operating-point
vector is simulation feedback and omitted). -/
structure Device where
  id : Identifier
  interactable : Interactable
  transform : SSTransform
  cls : DeviceClass
  nets : List String
deriving DecidableEq, Repr

/-- `Device::new_with_ord_class` (deviceinstance.rs:101-110). -/
def Device.newWithOrdClass (wm : Nat) (cls : DeviceClass) : Device :=
  ⟨Identifier.newWithPfxOrd cls.idPfx wm, Interactable.new, SSTransform.identity, cls, []⟩

/-- `Device::ports_ssp` (deviceinstance.rs:112-114): the transformed port
points in template port order. -/
def Device.portsSsp (d : Device) : List SSPoint :=
  d.cls.graphics.ports.map (fun p => d.transform.transformPoint p.offset)

/-- `Device::ports_occupy_ssp` (deviceinstance.rs:116-123). -/
def Device.portsOccupySsp (d : Device) (ssp : SSPoint) : Bool :=
  d.cls.graphics.ports.any (fun p => d.transform.transformPoint p.offset == ssp)

/-- `Device::set_position` (deviceinstance.rs:129-133): overwrite the
translation entries and recompute the cached bounds. -/
def Device.setPosition (d : Device) (ssp : SSPoint) : Device :=
  let t := { d.transform with m31 := ssp.x, m32 := ssp.y }
  { d with transform := t,
           interactable := { d.interactable with
             bounds := t.outerTransformedBox d.cls.graphics.bounds } }

/-- `impl Interactive for Device`, `transform` (deviceinstance.rs:209-214):
post-compose the device transform with `sst` and recompute the cached
bounds from the shared template bounds. -/
def Device.transformBy (d : Device) (sst : SSTransform) : Device :=
  let t := d.transform.andThen sst
  { d with transform := t,
           interactable := { d.interactable with
             bounds := t.outerTransformedBox d.cls.graphics.bounds } }

/-- Modelled from the spec: the `Devices` registry revision that
`src/schematic.rs` calls into (`new_res` / `new_gnd` / `new_vs`, `get_set`,
`insert`, `delete_device`, …), embedded arena-style per §9: the store is an
association list from a stable instance handle (a `Nat` standing for the
`Rc` pointer identity of `RcRDevice`) to the instance, in deterministic
iteration order, together with the per-class watermark counters of the
`DeviceSet`s (src/schematic/devices.rs:247-258). -/
structure Devices where
  store : List (Nat × Device)
  nextId : Nat
  wmR : Nat
  wmG : Nat
  wmV : Nat
deriving DecidableEq, Repr

/-- Empty registry (`Devices::default`). -/
def Devices.empty : Devices := ⟨[], 0, 0, 0, 0⟩

/-- Handle lookup in the arena (dereferencing an `RcRDevice`). -/
def Devices.lookup (ds : Devices) (i : Nat) : Option Device :=
  (ds.store.find? (fun e => e.1 == i)).map (·.2)

/-- In-place mutation through a shared handle
(`d.0.borrow_mut()` followed by re-`insert`ing the same handle). -/
def Devices.updateAt (ds : Devices) (i : Nat) (f : Device → Device) : Devices :=
  { ds with store := ds.store.map (fun e => if e.1 == i then (e.1, f e.2) else e) }

/-- Modelled from the spec: `DeviceSet::new_instance`
(src/schematic/devices.rs:253-258) — bump the class watermark, allocate the
instance with it, push it into the store; returns its fresh handle. -/
def Devices.newRes (ds : Devices) : Devices × Nat :=
  let wm := ds.wmR + 1
  ({ ds with wmR := wm, nextId := ds.nextId + 1,
             store := ds.store ++ [(ds.nextId, Device.newWithOrdClass wm classR)] },
   ds.nextId)

/-- Modelled from the spec: ground-class instance allocation. -/
def Devices.newGnd (ds : Devices) : Devices × Nat :=
  let wm := ds.wmG + 1
  ({ ds with wmG := wm, nextId := ds.nextId + 1,
             store := ds.store ++ [(ds.nextId, Device.newWithOrdClass wm classGnd)] },
   ds.nextId)

/-- Modelled from the spec: voltage-source-class instance allocation. -/
def Devices.newVs (ds : Devices) : Devices × Nat :=
  let wm := ds.wmV + 1
  ({ ds with wmV := wm, nextId := ds.nextId + 1,
             store := ds.store ++ [(ds.nextId, Device.newWithOrdClass wm classVs)] },
   ds.nextId)

/-- Modelled from the spec: `Devices::delete_device` — drop the instance
behind the handle; deleting an absent handle is a no-op (§4.3). -/
def Devices.deleteDevice (ds : Devices) (i : Nat) : Devices :=
  { ds with store := ds.store.filter (fun e => !(e.1 == i)) }

/-- Modelled from the spec: `Devices::ports_ssp` (§4.3) — all instances'
transformed port points (cf. src/schematic/devices.rs:312-316). -/
def Devices.portsSsp (ds : Devices) : List SSPoint :=
  ds.store.flatMap (fun e => e.2.portsSsp)

/-- Modelled from the spec: `Devices::occupies_ssp`
(cf. src/schematic/devices.rs:359-364). -/
def Devices.occupiesSsp (ds : Devices) (p : SSPoint) : Bool :=
  ds.store.any (fun e => e.2.portsOccupySsp p)

/-- Modelled from the spec: `Devices::clear_tentatives`
(cf. src/schematic/devices.rs:337-341). -/
def Devices.clearT (ds : Devices) : Devices :=
  { ds with store := ds.store.map (fun e =>
      (e.1, { e.2 with interactable := { e.2.interactable with tentative := false } })) }

/-- Setting the tentative flag through a shared handle
(`d.0.borrow_mut().interactable.tentative = true`, src/schematic.rs:141). -/
def Devices.setTent (ds : Devices) (i : Nat) : Devices :=
  ds.updateAt i (fun d => { d with interactable := { d.interactable with tentative := true } })

/-- Modelled from the spec: `Devices::tentatives_by_ssbox` — flag every
instance whose cached bounds intersect the box
(cf. src/schematic/devices.rs:170-174). -/
def Devices.tentativesBySsbox (ds : Devices) (ssb : SSBox) : Devices :=
  { ds with store := ds.store.map (fun e =>
      if e.2.interactable.bounds.intersects ssb then
        (e.1, { e.2 with interactable := { e.2.interactable with tentative := true } })
      else e) }

/-- Modelled from the spec: `Devices::tentatives` — handles of the flagged
instances, in iteration order. -/
def Devices.tentatives (ds : Devices) : List Nat :=
  (ds.store.filter (fun e => e.2.interactable.tentative)).map (·.1)

/-- `BaseElement` of src/schematic.rs:35-39: a net edge by value, or a
device by shared-instance handle. -/
inductive BaseElement where
  | netEdge (e : NetEdge)
  | device (i : Nat)
deriving DecidableEq, Repr

/-- `impl PartialEq for BaseElement` (src/schematic.rs:41-49): edges compare
by `NetEdge` equality — modelled from the spec as vertex-pair identity (§3:
"edges by vertex pair", the `NetEdge` `PartialEq` impl lives in the absent
nets module) — and devices compare by `ByAddress` pointer identity, i.e.
handle equality. -/
def BaseElement.beq : BaseElement → BaseElement → Bool
  | .netEdge a, .netEdge b => a.src == b.src && a.dst == b.dst
  | .device i, .device j => i == j
  | _, _ => false

/-- `impl Hash for BaseElement` (src/schematic.rs:53-60), modelled as the
value fed to the hasher: the edge's vertex pair, or the device handle. -/
def BaseElement.hashKey : BaseElement → (SSPoint × SSPoint) ⊕ Nat
  | .netEdge e => Sum.inl (e.src, e.dst)
  | .device i => Sum.inr i

/-- `HashSet::insert` on the selection set: keep the set unchanged when an
element equal (in the `BaseElement` sense) is already present, append
otherwise. -/
def selInsert (sel : List BaseElement) (b : BaseElement) : List BaseElement :=
  if sel.any (fun x => x.beq b) then sel else sel ++ [b]

/-- `SchematicState` (src/schematic.rs:62-69). -/
inductive SchematicState where
  | wiring (ws : Option (Nets × SSPoint))
  | idle
  | selecting (ssb : SSBox)
  | moving (m : Option (SSPoint × SSPoint × SSTransform))
deriving DecidableEq, Repr

/-- `Schematic` (src/schematic.rs:86-95): nets graph, device registry,
interaction state, skip counter, selection set (the `HashSet` is embedded
as a duplicate-free list in insertion order). -/
structure Schematic where
  nets : Nets
  devices : Devices
  state : SchematicState
  selskip : Nat
  selected : List BaseElement
deriving DecidableEq, Repr

/-- Empty schematic (`Schematic::default`). -/
def Schematic.empty : Schematic :=
  ⟨⟨[]⟩, Devices.empty, SchematicState.idle, 0, []⟩

/-- Modelled from the spec: the shared scan of the `SchematicSet::selectable`
impls of the absent nets / devices modules (§4.2, §4.3: "given a point and
a skip count, returns the nth element (by deterministic iteration order)
that contains the point, or none", trait at src/schematic.rs:31-33): walk
the collection in order; at each element containing the point, select it
when `count` has reached `skip` — bumping `skip` past it so the next
invocation moves on ("sets flag on next qualifying element",
src/schematic.rs:147) — and tally it into `count` otherwise.  Returns
(found element, skip, count). -/
def selLoop (pred : α → Bool) (emb : α → BaseElement) :
    List α → Nat → Nat → Option BaseElement × Nat × Nat
  | [], skip, count => (none, skip, count)
  | a :: t, skip, count =>
    if pred a then
      if count == skip then (some (emb a), skip + 1, count)
      else selLoop pred emb t skip (count + 1)
    else selLoop pred emb t skip count

/-- Modelled from the spec: `impl SchematicSet for Nets`, `selectable`. -/
def Nets.selectable (n : Nets) (p : SSPoint) (skip count : Nat) :
    Option BaseElement × Nat × Nat :=
  selLoop (fun e => e.containsPt p) BaseElement.netEdge n.edges skip count

/-- Modelled from the spec: `impl SchematicSet for Devices`, `selectable` —
same contract over the cached device bounds (§4.3). -/
def Devices.selectable (ds : Devices) (p : SSPoint) (skip count : Nat) :
    Option BaseElement × Nat × Nat :=
  selLoop (fun e => e.2.interactable.bounds.containsPt p)
    (fun e => BaseElement.device e.1) ds.store skip count

/-- One iteration of the `Schematic::selectable` loop body
(src/schematic.rs:257-264): scan nets with a fresh count, then devices
continuing the same count. -/
def Schematic.selOnePass (s : Schematic) (p : SSPoint) (skip : Nat) :
    Option BaseElement × Nat × Nat :=
  match s.nets.selectable p skip 0 with
  | (some e, skip', count') => (some e, skip', count')
  | (none, _, count₁) => s.devices.selectable p skip count₁

/-- `Schematic::selectable` (src/schematic.rs:255-271): repeat the scan,
returning the found element, zeroing the skip when nothing at all contains
the point, and wrapping the skip past the tallied hits otherwise.  The
source `loop` is embedded with explicit fuel; `skip + 1` iterations always
suffice (each pass that recurses strictly decreases `skip`), which
`Schematic.selectableGo` supplies. -/
def Schematic.selectableFuel (s : Schematic) (p : SSPoint) :
    Nat → Nat → Option BaseElement × Nat
  | 0, skip => (none, skip)
  | fuel + 1, skip =>
    match s.selOnePass p skip with
    | (some e, skip', _) => (some e, skip')
    | (none, _, count) =>
      if count == 0 then (none, 0)
      else s.selectableFuel p fuel (skip - count)

/-- `Schematic::selectable` at adequate fuel. -/
def Schematic.selectableGo (s : Schematic) (p : SSPoint) (skip : Nat) :
    Option BaseElement × Nat :=
  s.selectableFuel p (skip + 1) skip

/-- `Schematic::clear_tentatives` (src/schematic.rs:117-120). -/
def Schematic.clearTent (s : Schematic) : Schematic :=
  { s with nets := s.nets.clearT, devices := s.devices.clearT }

/-- `Schematic::tentative_by_sspoint` (src/schematic.rs:129-146): clear all
tentative flags, find the selectable element, flag it (for a net edge: a
clone with the flag set replaces the graph edge keyed by its vertex pair;
for a device: through its shared handle), and return the net label when the
flagged element is a net edge.  The by-reference `skip` is returned. -/
def Schematic.tentativeBySspoint (s : Schematic) (ssp : SSPoint) (skip : Nat) :
    Schematic × Nat × Option String :=
  let s := s.clearTent
  match s.selectableGo ssp skip with
  | (some (BaseElement.netEdge e), skip') =>
    ({ s with nets := s.nets.addEdge { e with tentative := true } }, skip', e.label)
  | (some (BaseElement.device i), skip') =>
    ({ s with devices := s.devices.setTent i }, skip', none)
  | (none, skip') => (s, skip', none)

/-- `Schematic::tentative_next_by_ssp` (src/schematic.rs:148-153): run
`tentative_by_sspoint` with the stored skip counter and store the counter
it leaves behind. -/
def Schematic.tentativeNextBySsp (s : Schematic) (ssp : SSPoint) :
    Schematic × Option String :=
  let r := s.tentativeBySspoint ssp s.selskip
  ({ r.1 with selskip := r.2.1 }, r.2.2)

/-- `Schematic::tentatives_by_ssbox` (src/schematic.rs:122-127): clear, then
flag devices and nets intersecting the normalized, 1-inflated box. -/
def Schematic.tentativesBySsbox (s : Schematic) (ssb : SSBox) : Schematic :=
  let s := s.clearTent
  let ssbP := (SSBox.fromPointsPair ssb.minP ssb.maxP).inflate 1 1
  { s with devices := s.devices.tentativesBySsbox ssbP,
           nets := s.nets.tentativesBySsbox ssbP }

/-- `Schematic::tentatives_to_selected` (src/schematic.rs:155-166): insert
every flagged device, then every flagged edge, into the selection set. -/
def Schematic.tentativesToSelected (s : Schematic) : Schematic :=
  let sel := (s.devices.tentatives.map BaseElement.device).foldl selInsert s.selected
  let sel := (s.nets.tentatives.map BaseElement.netEdge).foldl selInsert sel
  { s with selected := sel }

/-- `Schematic::occupies_ssp` (src/schematic.rs:168-170). -/
def Schematic.occupiesSsp (s : Schematic) (ssp : SSPoint) : Bool :=
  s.nets.occupiesSsp ssp || s.devices.occupiesSsp ssp

/-- `Schematic::active_device` (src/schematic.rs:99-111): collect the device
handles of the selection; when exactly one was collected pop it, else
none. -/
def Schematic.activeDevice (s : Schematic) : Option Nat :=
  let v := s.selected.filterMap (fun b => match b with
    | BaseElement.device i => some i
    | _ => none)
  if v.length == 1 then v.getLast? else none

/-- Deterministic orientation of an edge: vertex pair sorted by the
`NetVertex` order of src/schematic/nets/graph/vertex.rs. -/
def NetEdge.orient (e : NetEdge) : NetEdge :=
  if SSPoint.lexLe e.src e.dst then e else { e with src := e.dst, dst := e.src }

/-- Drop every edge whose vertex pair was already seen (multi-edge collapse,
§3: "multi-edges between the same pair are disallowed — merging collapses
them"); keeps the first occurrence. -/
def dedupKeep (seen : List (SSPoint × SSPoint)) : List NetEdge → List NetEdge
  | [] => []
  | e :: t =>
    if seen.contains (e.src, e.dst) then dedupKeep seen t
    else e :: dedupKeep ((e.src, e.dst) :: seen) t

/-- Multi-edge collapse from an empty seen-set. -/
def dedupEdges (l : List NetEdge) : List NetEdge := dedupKeep [] l

/-- Canonical edge-list form: zero-length edges dropped (a zero-length
segment is never created, §7), every edge oriented, multi-edges
collapsed. -/
def normalizeEdges (l : List NetEdge) : List NetEdge :=
  dedupEdges ((l.filter (fun e => !(e.src == e.dst))).map NetEdge.orient)

/-- Two edges lie on one axis-aligned line (all four endpoints share an x or
share a y coordinate). -/
def collinearPair (e1 e2 : NetEdge) : Bool :=
  (e1.src.x == e1.dst.x && e2.src.x == e1.src.x && e2.dst.x == e1.src.x) ||
  (e1.src.y == e1.dst.y && e2.src.y == e1.src.y && e2.dst.y == e1.src.y)

/-- The vertex at which two edges touch endpoint-to-endpoint, if any. -/
def sharedVertex (e1 e2 : NetEdge) : Option SSPoint :=
  if e1.src == e2.src || e1.src == e2.dst then some e1.src
  else if e1.dst == e2.src || e1.dst == e2.dst then some e1.dst
  else none

/-- Number of edges incident to a vertex (graph degree over the edge
list). -/
def degreeAt (l : List NetEdge) (v : SSPoint) : Nat :=
  (l.filter (fun e => e.src == v || e.dst == v)).length

/-- Modelled from the spec: the merge-step guard of `prune` (§4.2 (a)+(b)) —
two edges merge when they touch at a vertex, are collinear, the vertex is a
degree-2 pass-through (exactly the two of them incident), and it coincides
with no device port. -/
def mergeablePair (l : List NetEdge) (ports : List SSPoint) (e1 e2 : NetEdge) : Bool :=
  match sharedVertex e1 e2 with
  | some v => collinearPair e1 e2 && degreeAt l v == 2 && !(ports.contains v)
  | none => false

/-- The single longer edge replacing a merged pair: the lexicographic span
of the four endpoints (the pair is collinear, so this is the union
segment); an existing label survives, first edge first; transient flags are
reset on the fresh edge. -/
def mergedEdge (e1 e2 : NetEdge) : NetEdge :=
  let pts := [e1.dst, e2.src, e2.dst]
  { src := pts.foldl SSPoint.lexMin e1.src,
    dst := pts.foldl SSPoint.lexMax e1.src,
    label := match e1.label with
      | some l => some l
      | none => e2.label,
    tentative := false, selected := false }

/-- First later partner mergeable with `e1` (degree computed over the full
list `l`). -/
def findMergeSnd (l : List NetEdge) (ports : List SSPoint) (e1 : NetEdge) :
    List NetEdge → Option NetEdge
  | [] => none
  | e2 :: t =>
    if mergeablePair l ports e1 e2 then some e2 else findMergeSnd l ports e1 t

/-- First mergeable pair of the list, in iteration order. -/
def findMergeFst (l : List NetEdge) (ports : List SSPoint) :
    List NetEdge → Option (NetEdge × NetEdge)
  | [] => none
  | e1 :: t =>
    match findMergeSnd l ports e1 t with
    | some e2 => some (e1, e2)
    | none => findMergeFst l ports t

/-- One merge rewrite of the prune pass: replace the first mergeable pair by
its span and re-canonicalize; `none` when the list is merge-free. -/
def mergeOnce (ports : List SSPoint) (l : List NetEdge) : Option (List NetEdge) :=
  match findMergeFst l ports l with
  | some (e1, e2) =>
    some (normalizeEdges (((l.erase e1).erase e2) ++ [mergedEdge e1 e2]))
  | none => none

/-- Merge rewrites to fixpoint, with fuel (every rewrite strictly shortens
the list, so `length + 1` fuel reaches the fixpoint). -/
def pruneLoop (ports : List SSPoint) : Nat → List NetEdge → List NetEdge
  | 0, l => l
  | fuel + 1, l =>
    match mergeOnce ports l with
    | none => l
    | some l' => pruneLoop ports fuel l'

/-- A connected component accumulated during the component scan: its vertex
list and the positions (indices into the edge list) of its edges. -/
structure NetComp where
  verts : List SSPoint
  idxs : List Nat
deriving DecidableEq, Repr

/-- Fold one edge (vertices `vs`, position `i`) into the running component
list: every component touching one of `vs` is fused with the new edge into
a single component, appended after the untouched ones. -/
def compsInsert (cs : List NetComp) (vs : List SSPoint) (i : Nat) : List NetComp :=
  let touching := cs.filter (fun c => c.verts.any (fun v => vs.contains v))
  let rest := cs.filter (fun c => !(c.verts.any (fun v => vs.contains v)))
  rest ++ [⟨touching.foldl (fun acc c => acc ++ c.verts) vs,
           (touching.foldl (fun acc c => acc ++ c.idxs) []) ++ [i]⟩]

/-- Component scan over the edge list, positions starting at `i`. -/
def buildCompsGo : Nat → List NetEdge → List NetComp → List NetComp
  | _, [], cs => cs
  | i, e :: t, cs => buildCompsGo (i + 1) t (compsInsert cs [e.src, e.dst] i)

/-- Modelled from the spec: `prune` step (c) — the connected components of
the graph, deterministically ordered. -/
def buildComps (l : List NetEdge) : List NetComp :=
  buildCompsGo 0 l []

/-- Modelled from the spec: `prune` step (d) — a component's label: the
first existing label among its edges in deterministic order wins; an
unlabeled component receives a generated name keyed by the position of its
first edge (the spec's "e.g. sequential netN" leaves the generated scheme
to the implementation; the prune entry point receives only the device port
list, which cannot single out the ground port, so the reserved-ground rule
is outside this model). -/
def compLabel (l : List NetEdge) (c : NetComp) : String :=
  match (c.idxs.filterMap (fun i => (l.get? i).bind (fun e => e.label))).head? with
  | some lbl => lbl
  | none =>
    match c.idxs with
    | [] => "net"
    | i :: t => "net" ++ Nat.repr (t.foldl Nat.min i)

/-- The label `relabelEdges` assigns to the edge at position `i`. -/
def relabelAt (l : List NetEdge) (cs : List NetComp) (i : Nat) : Option String :=
  match cs.find? (fun c => c.idxs.contains i) with
  | some c => some (compLabel l c)
  | none => none

/-- Walk the edge list assigning each edge its component label. -/
def relabelGo (l : List NetEdge) (cs : List NetComp) :
    Nat → List NetEdge → List NetEdge
  | _, [] => []
  | i, e :: t =>
    { e with label := match relabelAt l cs i with
        | some lbl => some lbl
        | none => e.label } :: relabelGo l cs (i + 1) t

/-- Modelled from the spec: the relabeling pass, steps (c)+(d) of `prune`. -/
def relabelEdges (l : List NetEdge) : List NetEdge :=
  relabelGo l (buildComps l) 0 l

/-- Modelled from the spec: `Nets::prune(device_port_points)` (§4.2) —
(a)+(b) canonicalize and merge collinear pass-through edges away from
device ports, then (c)+(d) relabel per connected component. -/
def Nets.prune (n : Nets) (ports : List SSPoint) : Nets :=
  let l := normalizeEdges n.edges
  ⟨relabelEdges (pruneLoop ports (l.length + 1) l)⟩

/-- Modelled from the spec: `Nets::merge(scratch, device_port_points)`
(§4.2) — splice the scratch sub-graph's edges into the persistent graph,
then immediately prune. -/
def Nets.merge (n : Nets) (scratch : Nets) (ports : List SSPoint) : Nets :=
  Nets.prune ⟨n.edges ++ scratch.edges⟩ ports

/-- Modelled from the spec: `Nets::pre_netlist` (src/schematic.rs:291) —
make every component's label available before the `net_at` queries of the
export walk (§3 invariant: the graph is labeled before netlist export). -/
def Nets.preNetlist (n : Nets) : Nets :=
  ⟨relabelEdges n.edges⟩

/-- `Schematic::prune_nets` (src/schematic.rs:302-304). -/
def Schematic.pruneNets (s : Schematic) : Schematic :=
  { s with nets := s.nets.prune s.devices.portsSsp }

/-- One element of the `delete_selected` loop body
(src/schematic.rs:275-284). -/
def Schematic.delStep (acc : Schematic) (b : BaseElement) : Schematic :=
  match b with
  | BaseElement.netEdge e => { acc with nets := acc.nets.deleteEdge e }
  | BaseElement.device i => { acc with devices := acc.devices.deleteDevice i }

/-- `Schematic::delete_selected` (src/schematic.rs:273-288): only in `Idle`,
remove every selected edge from the nets graph and every selected device
from the registry, empty the selection, prune. -/
def Schematic.deleteSelected (s : Schematic) : Schematic :=
  match s.state with
  | SchematicState.idle =>
    let s := s.selected.foldl Schematic.delStep s
    ({ s with selected := [] }).pruneNets
  | _ => s

/-- One element of the `move_selected` loop body (src/schematic.rs:309-318):
edges through `Nets::transform`, devices through their shared handle
(mutate, then re-`insert` the same handle). -/
def Schematic.moveStep (sst : SSTransform) (acc : Schematic) (b : BaseElement) : Schematic :=
  match b with
  | BaseElement.netEdge e => { acc with nets := acc.nets.transformEdge e sst }
  | BaseElement.device i =>
    { acc with devices := acc.devices.updateAt i (fun d => d.transformBy sst) }

/-- `Schematic::move_selected` (src/schematic.rs:306-320): take the
selection, empty it, and transform each element. -/
def Schematic.moveSelected (s : Schematic) (sst : SSTransform) : Schematic :=
  let sel := s.selected
  let s := { s with selected := [] }
  sel.foldl (Schematic.moveStep sst) s

/-- `Device::spice_line` (src/schematic/devices/deviceinstance.rs:135-149):
clear the collected net names; start the line with the effective id and a
space; for each template port in order append the net name at the
transformed port point and a space (collecting the name); finish with the
parameter summary and a newline.  Returns the line and the device with its
collected names. -/
def Device.spiceLine (d : Device) (nets : Nets) : String × Device :=
  let init : String × List String := (d.id.ngId ++ " ", [])
  let acc := d.cls.graphics.ports.foldl (fun (acc : String × List String) p =>
    let pt := d.transform.transformPoint p.offset
    let net := nets.netAt pt
    (acc.1 ++ net ++ " ", acc.2 ++ [net])) init
  (acc.1 ++ d.cls.paramSummary ++ "\n", { d with nets := acc.2 })

/-- `Schematic::netlist` (src/schematic.rs:290-300) minus the file write:
run `pre_netlist`, start from the header line, append each device's spice
line in registry order, and append the final newline (the trailing blank
line).  Returns the netlist text and the mutated schematic. -/
def Schematic.netlistString (s : Schematic) : String × Schematic :=
  let nets := s.nets.preNetlist
  let acc := s.devices.store.foldl
    (fun (acc : String × List (Nat × Device)) e =>
      let r := e.2.spiceLine nets
      (acc.1 ++ r.1, acc.2 ++ [(e.1, r.2)]))
    ("Netlist Created by Circe\n", [])
  (acc.1 ++ "\n",
   { s with nets := nets, devices := { s.devices with store := acc.2 } })

/-- The input events consumed by `Schematic::events_handler`
(src/schematic.rs:326-513) that drive the editing core: the mouse events
and the key codes the handler matches on (the netlist / simulation keys `T`
and `Space` perform file and process I/O and are outside the embedding;
`Schematic.netlistString` embeds their document effect). -/
inductive Event where
  | cursorMoved
  | leftPressed
  | leftReleased
  | keyW
  | keyR
  | keyG
  | keyV
  | keyM
  | keyEsc
  | keyDelete
  | keyC
deriving DecidableEq, Repr

/-- The state/event match of `Schematic::events_handler`
(src/schematic.rs:340-510), arm for arm in source order, over the already
hover-updated schematic `s`, the feedback string `ret` captured by the
hover recompute, and the current interaction state `st` (the source's
clone of `self.state`). -/
def Schematic.stateStep (st : SchematicState) (event : Event) (s : Schematic)
    (ret : Option String) (curposSsp : SSPoint) :
    Schematic × Option String × Bool :=
  match st, event with
  | _, Event.keyW =>
    ({ s with state := SchematicState.wiring none }, ret, false)
  | SchematicState.wiring (some (g, prevSsp)), Event.cursorMoved =>
    let g' := g.clearAll.route prevSsp curposSsp
    ({ s with state := SchematicState.wiring (some (g', prevSsp)) }, ret, false)
  | SchematicState.wiring optWs, Event.leftPressed =>
    (match optWs with
    | some (g, prevSsp) =>
      if curposSsp == prevSsp then
        ({ s with state := SchematicState.wiring none }, ret, true)
      else if s.occupiesSsp curposSsp then
        ({ s with nets := s.nets.merge g s.devices.portsSsp,
                  state := SchematicState.wiring none }, ret, true)
      else
        ({ s with nets := s.nets.merge g s.devices.portsSsp,
                  state := SchematicState.wiring (some (⟨[]⟩, curposSsp)) }, ret, true)
    | none =>
      ({ s with state := SchematicState.wiring (some (⟨[]⟩, curposSsp)) }, ret, true))
  | SchematicState.idle, Event.leftPressed =>
    ({ s with state := SchematicState.selecting ⟨curposSsp, curposSsp⟩ }, ret, false)
  | SchematicState.selecting ssb, Event.cursorMoved =>
    let ssb' : SSBox := ⟨ssb.minP, curposSsp⟩
    let s := s.tentativesBySsbox ssb'
    ({ s with state := SchematicState.selecting ssb' }, ret, false)
  | SchematicState.selecting _, Event.leftReleased =>
    ({ s.tentativesToSelected with state := SchematicState.idle }, ret, true)
  | SchematicState.idle, Event.keyR =>
    let r := s.devices.newRes
    let ds := r.1.updateAt r.2 (fun d => d.setPosition curposSsp)
    ({ s with devices := ds,
              selected := [BaseElement.device r.2],
              state := SchematicState.moving
                (some (curposSsp, curposSsp, SSTransform.identity)) }, ret, false)
  | SchematicState.idle, Event.keyG =>
    let r := s.devices.newGnd
    let ds := r.1.updateAt r.2 (fun d => d.setPosition curposSsp)
    ({ s with devices := ds,
              selected := [BaseElement.device r.2],
              state := SchematicState.moving
                (some (curposSsp, curposSsp, SSTransform.identity)) }, ret, false)
  | SchematicState.idle, Event.keyV =>
    let r := s.devices.newVs
    let ds := r.1.updateAt r.2 (fun d => d.setPosition curposSsp)
    ({ s with devices := ds,
              selected := [BaseElement.device r.2],
              state := SchematicState.moving
                (some (curposSsp, curposSsp, SSTransform.identity)) }, ret, false)
  | _, Event.keyM =>
    ({ s with state := SchematicState.moving none }, ret, false)
  | SchematicState.moving (some (ssp0, _, sst)), Event.cursorMoved =>
    ({ s with state := SchematicState.moving (some (ssp0, curposSsp, sst)) }, ret, false)
  | SchematicState.moving (some (ssp0, ssp1, sst)), Event.keyR =>
    let st' := SchematicState.moving (some (ssp0, ssp1, sst.andThen SST_CWR))
    ({ s with state := st' }, ret, false)
  | SchematicState.moving optPts, Event.leftPressed =>
    (match optPts with
    | some (ssp0, ssp1, sst) =>
      let s := s.moveSelected (moveTransform ssp0 ssp1 sst)
      let s := s.pruneNets
      ({ s with state := SchematicState.idle }, ret, true)
    | none =>
      let st' := SchematicState.moving (some (curposSsp, curposSsp, SSTransform.identity))
      ({ s with state := st' }, ret, false))
  | st, Event.keyEsc =>
    (match st with
    | SchematicState.idle => ({ s with selected := [] }, ret, true)
    | _ => ({ s with state := SchematicState.idle }, ret, false))
  | SchematicState.idle, Event.keyDelete =>
    (s.deleteSelected, ret, true)
  | SchematicState.idle, Event.keyC =>
    let r := s.tentativeNextBySsp curposSsp
    (r.1, r.2, false)
  | _, _ => (s, ret, false)

/-- `Schematic::events_handler` (src/schematic.rs:326-513).  Mirrors the
source: first the cursor-moved hover recompute (skip counter saturating-
decremented, tentative flag recomputed, counter stored back, feedback
string captured), then the state/event match of `Schematic.stateStep`;
returns the mutated schematic, the feedback string, and `clear_passive`. -/
def Schematic.eventsHandler (s : Schematic) (event : Event) (curposSsp : SSPoint) :
    Schematic × Option String × Bool :=
  let pre :=
    match event with
    | Event.cursorMoved =>
      let r := s.tentativeBySspoint curposSsp (s.selskip - 1)
      ({ r.1 with selskip := r.2.1 }, r.2.2)
    | _ => (s, none)
  Schematic.stateStep pre.1.state event pre.1 pre.2 curposSsp

/-- The elements containing a point, in hit-test scan order: net edges in
graph iteration order first, then devices in registry order. -/
def Schematic.hitsAt (s : Schematic) (p : SSPoint) : List BaseElement :=
  (s.nets.edges.filter (fun e => e.containsPt p)).map BaseElement.netEdge ++
  (s.devices.store.filter (fun e => e.2.interactable.bounds.containsPt p)).map
    (fun e => BaseElement.device e.1)

/-- Identities of the tentative-flagged elements, edges first. -/
def Schematic.flaggedKeys (s : Schematic) : List ((SSPoint × SSPoint) ⊕ Nat) :=
  (s.nets.tentatives.map (fun e => Sum.inl (e.src, e.dst))) ++
  (s.devices.tentatives.map Sum.inr)

/-- Number of elements currently carrying the tentative flag. -/
def Schematic.tentCount (s : Schematic) : Nat := s.flaggedKeys.length

/-- Vertex-pair key list of an edge list. -/
def keyList (l : List NetEdge) : List (SSPoint × SSPoint) := l.map NetEdge.key

/-- The graph invariant maintained by `GraphMap`: one edge per vertex
pair. -/
def nodupKeys (l : List NetEdge) : Prop := (keyList l).Nodup

/-- The registry invariant: one store entry per instance handle. -/
def nodupIds (ds : Devices) : Prop := (ds.store.map Prod.fst).Nodup

/-- Iterated "cycle" command (`C` key) at a fixed cursor point. -/
def Schematic.cycleIter (s : Schematic) (p : SSPoint) : Nat → Schematic
  | 0 => s
  | k + 1 => ((s.cycleIter p k).eventsHandler Event.keyC p).1

/-- Whether deleting the selected element `b` removes the edge `x`
(selected edges are deleted by vertex pair, src/schematic.rs:277-279). -/
def selKillsEdge (b : BaseElement) (x : NetEdge) : Bool :=
  match b with
  | BaseElement.netEdge e => x.src == e.src && x.dst == e.dst
  | _ => false

/-- Whether deleting the selected element `b` removes the registry entry
`en` (selected devices are deleted by handle, src/schematic.rs:280-282). -/
def selKillsDev (b : BaseElement) (en : Nat × Device) : Bool :=
  match b with
  | BaseElement.device i => en.1 == i
  | _ => false

/-- The edges surviving a `delete_selected` pass (not removed by any
selected element). -/
def Schematic.survivingEdges (s : Schematic) : List NetEdge :=
  s.nets.edges.filter (fun x => !(s.selected.any (fun b => selKillsEdge b x)))

/-- The registry entries surviving a `delete_selected` pass. -/
def Schematic.survivingStore (s : Schematic) : List (Nat × Device) :=
  s.devices.store.filter (fun en => !(s.selected.any (fun b => selKillsDev b en)))

/-- Demo device for the move-commit scenario of §8: a resistor instance
positioned at (2,3). -/
def moveDemoDevice : Device := (Device.newWithOrdClass 1 classR).setPosition ⟨2, 3⟩

/-- Demo schematic: the single resistor selected, mid-move with grab point
(2,3), cursor (5,3), no rotation. -/
def moveDemo : Schematic :=
  { Schematic.empty with
    devices := ⟨[(0, moveDemoDevice)], 1, 1, 0, 0⟩,
    selected := [BaseElement.device 0],
    state := SchematicState.moving (some (⟨2, 3⟩, ⟨5, 3⟩, SSTransform.identity)) }

/-- Demo schematic: wiring in progress anchored at (5,5) over a one-edge
graph. -/
def wireDemo : Schematic :=
  { Schematic.empty with
    nets := ⟨[⟨⟨0, 0⟩, ⟨2, 0⟩, some "a", false, false⟩]⟩,
    state := SchematicState.wiring (some (⟨[]⟩, ⟨5, 5⟩)) }

/-- Demo schematic: idle, one selected edge of a two-edge graph. -/
def delDemo : Schematic :=
  { Schematic.empty with
    nets := ⟨[⟨⟨0, 0⟩, ⟨2, 0⟩, some "a", false, false⟩,
              ⟨⟨0, 5⟩, ⟨4, 5⟩, some "b", false, true⟩]⟩,
    selected := [BaseElement.netEdge ⟨⟨0, 5⟩, ⟨4, 5⟩, some "b", false, true⟩] }

/-- Demo schematic: three parallel-overlapping labeled edges through (1,0),
idle, for hit-cycling. -/
def cycleDemo : Schematic :=
  { Schematic.empty with
    nets := ⟨[⟨⟨0, 0⟩, ⟨2, 0⟩, some "n0", false, false⟩,
              ⟨⟨0, 0⟩, ⟨3, 0⟩, some "n1", false, false⟩,
              ⟨⟨0, 0⟩, ⟨4, 0⟩, some "n2", false, false⟩]⟩ }

/-- Hash-identities of the elements containing a point, in hit-test scan
order. -/
def Schematic.hitKeys (s : Schematic) (p : SSPoint) :
    List ((SSPoint × SSPoint) ⊕ Nat) :=
  (s.hitsAt p).map BaseElement.hashKey

/-- Demo registry: two structurally identical resistor instances behind
distinct handles. -/
def dupDevices : Devices :=
  ⟨[(0, Device.newWithOrdClass 1 classR), (1, Device.newWithOrdClass 1 classR)], 2, 1, 0, 0⟩

/-- Geometric identity of two edges: same source and destination vertices
(labels and transient flags are free). -/
def eqk (a b : NetEdge) : Prop := a.src = b.src ∧ a.dst = b.dst

/-- Invariants of the running component list of the component scan:
every accumulated component is nonempty, holds only positions below the
scan cursor, and no position lies in two components. -/
def compsInv (bound : Nat) (cs : List NetComp) : Prop :=
  (∀ c ∈ cs, c.idxs ≠ []) ∧
  (∀ c ∈ cs, ∀ j ∈ c.idxs, j < bound) ∧
  List.Pairwise (fun c1 c2 => ∀ j, j ∈ c1.idxs → j ∉ c2.idxs) cs

/-- C8. For every device instance, the effective identifier is the class
prefix followed by the user-supplied custom string when present, and
otherwise the class prefix followed by the decimal rendering of the
ordinal watermark (`Identifier::ng_id`, deviceinstance.rs:40-49). -/
theorem effective_id_formula (idn : Identifier) :
    (∀ str, idn.custom = some str → idn.ngId = idn.idPfx ++ str) ∧
    (idn.custom = none → idn.ngId = idn.idPfx ++ Nat.repr idn.wm) := by
  constructor
  · intro str h
    simp [Identifier.ngId, h]
  · intro h
    simp [Identifier.ngId, h]

/-- Witness for C8 at concrete identifiers. -/
theorem effective_id_formula_witness :
    (Identifier.mk "V" 3 (some "out")).ngId = "V" ++ "out" ∧
    (Identifier.mk "R" 5 none).ngId = "R" ++ Nat.repr 5 :=
  ⟨(effective_id_formula ⟨"V", 3, some "out"⟩).1 "out" rfl,
   (effective_id_formula ⟨"R", 5, none⟩).2 rfl⟩

/-- C10. `Schematic::active_device` returns the selected device exactly
when the selection holds precisely one device handle — independent of any
selected net edges — and `none` when it holds zero or several. -/
theorem active_device_iff_unique (s : Schematic) :
    (∀ i, s.selected.filterMap (fun b => match b with
        | BaseElement.device j => some j
        | _ => none) = [i] → s.activeDevice = some i) ∧
    ((s.selected.filterMap (fun b => match b with
        | BaseElement.device j => some j
        | _ => none)).length ≠ 1 → s.activeDevice = none) ∧
    (∀ es, (∀ b ∈ es, ∃ e, b = BaseElement.netEdge e) →
      Schematic.activeDevice { s with selected := s.selected ++ es } = s.activeDevice) := by
  refine ⟨?_, ?_, ?_⟩
  · intro i h
    simp [Schematic.activeDevice, h]
  · intro h
    simp only [Schematic.activeDevice]
    rw [if_neg]
    simp [h]
  · intro es hes
    have hnil : es.filterMap (fun b => match b with
        | BaseElement.device j => some j
        | _ => none) = [] := by
      refine List.filterMap_eq_nil_iff.mpr ?_
      intro b hb
      obtain ⟨e, rfl⟩ := hes b hb
      rfl
    simp [Schematic.activeDevice, List.filterMap_append, hnil]

/-- Witness for C10: one device plus an edge selected, then two devices. -/
theorem active_device_iff_unique_witness :
    Schematic.activeDevice { Schematic.empty with
      selected := [BaseElement.netEdge ⟨⟨0, 0⟩, ⟨1, 0⟩, none, false, false⟩,
                   BaseElement.device 7] } = some 7 ∧
    Schematic.activeDevice { Schematic.empty with
      selected := [BaseElement.device 1, BaseElement.device 2] } = none :=
  ⟨(active_device_iff_unique _).1 7 (by decide),
   (active_device_iff_unique _).2.1 (by decide)⟩

/-- C9. Selection-set elements compare by value identity — edges by vertex
pair, devices by instance handle, never across kinds — equal elements hash
alike, and two structurally identical devices behind distinct handles are
unequal and can both be members of the selection set. -/
theorem selection_value_identity :
    (∀ e1 e2 : NetEdge, ((BaseElement.netEdge e1).beq (BaseElement.netEdge e2) = true) ↔
        e1.src = e2.src ∧ e1.dst = e2.dst) ∧
    (∀ i j : Nat, ((BaseElement.device i).beq (BaseElement.device j) = true) ↔ i = j) ∧
    (∀ (e : NetEdge) (i : Nat), (BaseElement.netEdge e).beq (BaseElement.device i) = false ∧
        (BaseElement.device i).beq (BaseElement.netEdge e) = false) ∧
    (∀ a b : BaseElement, a.beq b = true → a.hashKey = b.hashKey) ∧
    (∀ (ds : Devices) (i j : Nat) (d : Device), i ≠ j →
      ds.lookup i = some d → ds.lookup j = some d →
      (BaseElement.device i).beq (BaseElement.device j) = false ∧
      selInsert (selInsert [] (BaseElement.device i)) (BaseElement.device j) =
        [BaseElement.device i, BaseElement.device j]) := by
  refine ⟨?_, ?_, ?_, ?_, ?_⟩
  · intro e1 e2
    simp [BaseElement.beq]
  · intro i j
    simp [BaseElement.beq]
  · intro e i
    exact ⟨rfl, rfl⟩
  · intro a b h
    cases a <;> cases b <;> simp_all [BaseElement.beq, BaseElement.hashKey]
  · intro ds i j d hij _ _
    constructor
    · simp [BaseElement.beq, hij]
    · simp [selInsert, BaseElement.beq, hij]

/-- Witness for C9 on two structurally identical resistor instances. -/
theorem selection_value_identity_witness :
    (BaseElement.device 0).beq (BaseElement.device 1) = false ∧
    selInsert (selInsert [] (BaseElement.device 0)) (BaseElement.device 1) =
      [BaseElement.device 0, BaseElement.device 1] :=
  selection_value_identity.2.2.2.2 dupDevices 0 1 (Device.newWithOrdClass 1 classR)
    (by decide) (by decide) (by decide)

/-- C5. While wiring with an in-progress scratch graph, a left-click at the
anchor point is silently ignored: no merge runs, no segment is created,
the persistent nets graph is unchanged (src/schematic.rs:362-363, the
`ssp == *prev_ssp` arm). -/
theorem wiring_zero_length_click_noop (s : Schematic) (g : Nets) (a : SSPoint)
    (h : s.state = SchematicState.wiring (some (g, a))) :
    (s.eventsHandler Event.leftPressed a).1.nets = s.nets ∧
    s.eventsHandler Event.leftPressed a =
      ({ s with state := SchematicState.wiring none }, none, true) := by
  have hmain : s.eventsHandler Event.leftPressed a =
      ({ s with state := SchematicState.wiring none }, none, true) := by
    simp [Schematic.eventsHandler, Schematic.stateStep, h]
  exact ⟨by rw [hmain], hmain⟩

/-- Witness for C5 at a concrete wiring schematic. -/
theorem wiring_zero_length_click_noop_witness :
    (wireDemo.eventsHandler Event.leftPressed ⟨5, 5⟩).1.nets = wireDemo.nets ∧
    wireDemo.eventsHandler Event.leftPressed ⟨5, 5⟩ =
      ({ wireDemo with state := SchematicState.wiring none }, none, true) :=
  wiring_zero_length_click_noop wireDemo ⟨[]⟩ ⟨5, 5⟩ rfl

/-- String join distributes over cons. -/
theorem string_join_cons (s : String) (l : List String) :
    String.join (s :: l) = s ++ String.join l := by
  have hoist : ∀ (l : List String) (a : String),
      l.foldl (fun r t => r ++ t) a = a ++ l.foldl (fun r t => r ++ t) "" := by
    intro l
    induction l with
    | nil => intro a; simp
    | cons b t ih =>
      intro a
      simp only [List.foldl_cons]
      rw [ih (a ++ b), ih ("" ++ b)]
      simp [String.append_assoc]
  simp only [String.join, List.foldl_cons]
  rw [hoist l ("" ++ s)]
  simp

/-- First component of a pair fold whose first component accumulates a
string per element. -/
theorem foldl_fst_join {α β : Type} (step : (String × β) → α → (String × β))
    (f : α → String) (hstep : ∀ acc a, (step acc a).1 = acc.1 ++ f a) :
    ∀ (l : List α) (init : String × β),
      (l.foldl step init).1 = init.1 ++ String.join (l.map f) := by
  intro l
  induction l with
  | nil => intro init; simp [String.join]
  | cons a t ih =>
    intro init
    simp only [List.foldl_cons, List.map_cons]
    rw [ih (step init a), hstep, string_join_cons, String.append_assoc]

/-- C3. Netlist export: exactly the header line, then one line per device
instance in registry order — the effective id, the net name at each
transformed template port in template port order (each followed by a
space), then the parameter summary — and a trailing blank line
(`Schematic::netlist`, src/schematic.rs:290-300, and `Device::spice_line`,
deviceinstance.rs:135-149). -/
theorem netlist_export_format (s : Schematic) :
    (s.netlistString).1 =
      "Netlist Created by Circe\n" ++
      String.join (s.devices.store.map (fun e => (e.2.spiceLine s.nets.preNetlist).1)) ++
      "\n" ∧
    (∀ (d : Device) (nets : Nets),
      (d.spiceLine nets).1 =
        d.id.ngId ++ " " ++
        String.join (d.cls.graphics.ports.map
          (fun p => nets.netAt (d.transform.transformPoint p.offset) ++ " ")) ++
        d.cls.paramSummary ++ "\n") := by
  constructor
  · simp only [Schematic.netlistString]
    rw [foldl_fst_join _ (fun e => (e.2.spiceLine s.nets.preNetlist).1) (fun acc a => rfl)]
  · intro d nets
    simp only [Device.spiceLine]
    rw [foldl_fst_join _
      (fun p => nets.netAt (d.transform.transformPoint p.offset) ++ " ")
      (fun acc a => String.append_assoc _ _ _)]

/-- The `delete_selected` loop removes exactly the selected edges from the
graph and the selected handles from the registry, leaving every other field
alone. -/
theorem foldl_delStep_eq (sel : List BaseElement) : ∀ (acc : Schematic),
    sel.foldl Schematic.delStep acc =
      { acc with
        nets := ⟨acc.nets.edges.filter (fun x => !(sel.any (fun b => selKillsEdge b x)))⟩,
        devices := { acc.devices with
          store := acc.devices.store.filter
            (fun en => !(sel.any (fun b => selKillsDev b en))) } } := by
  induction sel with
  | nil =>
    intro acc
    simp
  | cons b rest ih =>
    intro acc
    simp only [List.foldl_cons]
    rw [ih (Schematic.delStep acc b)]
    cases b with
    | netEdge e =>
      simp only [Schematic.delStep, Nets.deleteEdge]
      have h1 : (acc.nets.edges.filter
            (fun x => !(x.src == e.src && x.dst == e.dst))).filter
              (fun x => !(rest.any (fun b => selKillsEdge b x)))
          = acc.nets.edges.filter
            (fun x => !((BaseElement.netEdge e :: rest).any (fun b => selKillsEdge b x))) := by
        rw [List.filter_filter]
        exact List.filter_congr (fun x _ => by
          simp [selKillsEdge, Bool.not_or, Bool.and_comm])
      have h2 : acc.devices.store.filter (fun en => !(rest.any (fun b => selKillsDev b en)))
          = acc.devices.store.filter
            (fun en => !((BaseElement.netEdge e :: rest).any (fun b => selKillsDev b en))) :=
        List.filter_congr (fun x _ => by simp [selKillsDev])
      rw [h1, h2]
    | device i =>
      simp only [Schematic.delStep, Devices.deleteDevice]
      have h1 : acc.nets.edges.filter (fun x => !(rest.any (fun b => selKillsEdge b x)))
          = acc.nets.edges.filter
            (fun x => !((BaseElement.device i :: rest).any (fun b => selKillsEdge b x))) :=
        List.filter_congr (fun x _ => by simp [selKillsEdge])
      have h2 : (acc.devices.store.filter (fun en => !(en.1 == i))).filter
            (fun en => !(rest.any (fun b => selKillsDev b en)))
          = acc.devices.store.filter
            (fun en => !((BaseElement.device i :: rest).any (fun b => selKillsDev b en))) := by
        rw [List.filter_filter]
        exact List.filter_congr (fun x _ => by
          simp [selKillsDev, Bool.not_or, Bool.and_comm])
      rw [h1, h2]

/-- Closed form of `delete_selected` in the `Idle` state. -/
theorem deleteSelected_idle_eq (s : Schematic) (h : s.state = SchematicState.idle) :
    s.deleteSelected =
      { s with selected := [],
               devices := { s.devices with store := s.survivingStore },
               nets := Nets.prune ⟨s.survivingEdges⟩
                 (Devices.portsSsp { s.devices with store := s.survivingStore }) } := by
  simp only [Schematic.deleteSelected, h]
  rw [foldl_delStep_eq]
  simp [Schematic.pruneNets, Schematic.survivingStore, Schematic.survivingEdges, h]

/-- C6. The delete key acts only in `Idle`: there it removes every selected
edge from the nets graph and every selected device from the registry,
empties the selection, and runs prune; with an already-pruned graph and an
empty selection it changes nothing, and in any non-`Idle` state the event
is ignored entirely (src/schematic.rs:272-288, 480-486). -/
theorem delete_key_idle_only (s : Schematic) (p : SSPoint) :
    (s.state = SchematicState.idle →
      s.eventsHandler Event.keyDelete p = (s.deleteSelected, none, true) ∧
      s.deleteSelected.selected = [] ∧
      s.deleteSelected.state = SchematicState.idle ∧
      s.deleteSelected.devices.store = s.survivingStore ∧
      s.deleteSelected.nets =
        Nets.prune ⟨s.survivingEdges⟩ s.deleteSelected.devices.portsSsp) ∧
    (s.state = SchematicState.idle → s.selected = [] →
      s.nets.prune s.devices.portsSsp = s.nets →
      s.eventsHandler Event.keyDelete p = (s, none, true)) ∧
    (s.state ≠ SchematicState.idle →
      s.eventsHandler Event.keyDelete p = (s, none, false)) := by
  refine ⟨?_, ?_, ?_⟩
  · intro h
    have hr : s.eventsHandler Event.keyDelete p = (s.deleteSelected, none, true) := by
      simp [Schematic.eventsHandler, Schematic.stateStep, h]
    refine ⟨hr, ?_, ?_, ?_, ?_⟩
    all_goals rw [deleteSelected_idle_eq s h]
    all_goals simp [h]
  · intro h hsel hprune
    have hr : s.eventsHandler Event.keyDelete p = (s.deleteSelected, none, true) := by
      simp [Schematic.eventsHandler, Schematic.stateStep, h]
    rw [hr, deleteSelected_idle_eq s h]
    simp only [Schematic.survivingEdges, Schematic.survivingStore, hsel, List.any_nil,
      Bool.not_false, List.filter_true]
    have hn : (⟨s.nets.edges⟩ : Nets) = s.nets := rfl
    have hd : ({ s.devices with store := s.devices.store } : Devices) = s.devices := rfl
    rw [hn, hd, hprune, ← hsel]
  · intro h
    cases hst : s.state with
    | idle => exact absurd hst h
    | wiring ws => simp [Schematic.eventsHandler, Schematic.stateStep, hst]
    | selecting b => simp [Schematic.eventsHandler, Schematic.stateStep, hst]
    | moving m => simp [Schematic.eventsHandler, Schematic.stateStep, hst]

/-- Witness for C6: a concrete deletion, the empty-selection no-op, and a
non-idle ignore. -/
theorem delete_key_idle_only_witness :
    delDemo.eventsHandler Event.keyDelete ⟨0, 0⟩ = (delDemo.deleteSelected, none, true) ∧
    Schematic.empty.eventsHandler Event.keyDelete ⟨0, 0⟩ = (Schematic.empty, none, true) ∧
    wireDemo.eventsHandler Event.keyDelete ⟨0, 0⟩ = (wireDemo, none, false) :=
  ⟨((delete_key_idle_only delDemo ⟨0, 0⟩).1 rfl).1,
   (delete_key_idle_only Schematic.empty ⟨0, 0⟩).2.1 rfl rfl (by decide),
   (delete_key_idle_only wireDemo ⟨0, 0⟩).2.2 (by decide)⟩

/-- `move_transform` pointwise: the committed transform is `t` acting about
pivot `p0`, composed with the translation `p1 - p0`. -/
theorem moveTransform_apply (p0 p1 : SSPoint) (t : SSTransform) (q : SSPoint) :
    (moveTransform p0 p1 t).transformPoint q =
      ((t.transformPoint (q.sub p0)).add p0).add (p1.sub p0) := by
  simp only [moveTransform, SSTransform.preTranslate, SSTransform.thenTranslate,
    SSTransform.andThen, SSTransform.transformPoint, SSPoint.add, SSPoint.sub,
    SSPoint.mk.injEq]
  constructor <;> ring

/-- The `move_selected` loop touches the selection list of nothing it
folds over. -/
theorem foldl_moveStep_selected (sst : SSTransform) (sel : List BaseElement) :
    ∀ acc : Schematic, (sel.foldl (Schematic.moveStep sst) acc).selected = acc.selected := by
  induction sel with
  | nil => intro acc; rfl
  | cons b rest ih =>
    intro acc
    rw [List.foldl_cons, ih]
    cases b <;> rfl

/-- The `move_selected` loop leaves the interaction state alone. -/
theorem foldl_moveStep_state (sst : SSTransform) (sel : List BaseElement) :
    ∀ acc : Schematic, (sel.foldl (Schematic.moveStep sst) acc).state = acc.state := by
  induction sel with
  | nil => intro acc; rfl
  | cons b rest ih =>
    intro acc
    rw [List.foldl_cons, ih]
    cases b <;> rfl

/-- The registry after the `move_selected` loop is the chain of handle
updates for the selected devices, in selection order. -/
theorem foldl_moveStep_devices (sst : SSTransform) (sel : List BaseElement) :
    ∀ acc : Schematic,
      (sel.foldl (Schematic.moveStep sst) acc).devices =
        (sel.filterMap (fun b => match b with
          | BaseElement.device i => some i
          | _ => none)).foldl
            (fun ds i => ds.updateAt i (fun d => d.transformBy sst)) acc.devices := by
  induction sel with
  | nil => intro acc; rfl
  | cons b rest ih =>
    intro acc
    cases b with
    | netEdge e =>
      rw [List.foldl_cons, ih]
      rfl
    | device i =>
      rw [List.foldl_cons, ih]
      rfl

/-- Pointwise-equal predicates find alike. -/
theorem find_pred_congr {α : Type} (p q : α → Bool) (h : ∀ a, p a = q a) :
    ∀ l : List α, l.find? p = l.find? q := by
  intro l
  induction l with
  | nil => rfl
  | cons a t ih =>
    rw [List.find?_cons, List.find?_cons, h a, ih]

/-- Handle lookup after one handle update. -/
theorem lookup_updateAt (ds : Devices) (j i : Nat) (f : Device → Device) :
    (ds.updateAt j f).lookup i =
      if j = i then (ds.lookup i).map f else ds.lookup i := by
  simp only [Devices.lookup, Devices.updateAt, List.find?_map]
  rw [find_pred_congr _ (fun e => e.1 == i) (fun e => by
    by_cases h : e.1 = j <;> simp [h])]
  cases hfind : ds.store.find? (fun e => e.1 == i) with
  | none => by_cases h : j = i <;> simp [h]
  | some en =>
    have hen : en.1 = i := by
      have := List.find?_some hfind
      simpa using this
    by_cases h : j = i
    · subst h
      simp [hen]
    · have : ¬en.1 = j := fun hc => h (by rw [← hc, hen])
      simp [h, this]

/-- Handle lookup after a duplicate-free chain of handle updates: updated
exactly once when the handle is in the chain, untouched otherwise. -/
theorem lookup_updateAt_chain (f : Device → Device) (ids : List Nat) :
    ∀ (ds : Devices) (i : Nat) (d : Device), ids.Nodup → ds.lookup i = some d →
      ((ids.foldl (fun a j => a.updateAt j f) ds).lookup i) =
        some (if i ∈ ids then f d else d) := by
  induction ids with
  | nil =>
    intro ds i d _ hl
    simpa using hl
  | cons j rest ih =>
    intro ds i d hnd hl
    have hrest : rest.Nodup := hnd.of_cons
    have hjrest : j ∉ rest := (List.nodup_cons.mp hnd).1
    rw [List.foldl_cons]
    by_cases hji : j = i
    · subst hji
      have hl' : (ds.updateAt j f).lookup j = some (f d) := by
        rw [lookup_updateAt, if_pos rfl, hl]
        rfl
      rw [ih (ds.updateAt j f) j (f d) hrest hl']
      simp [hjrest]
    · have hl' : (ds.updateAt j f).lookup i = some d := by
        rw [lookup_updateAt, if_neg hji, hl]
      rw [ih (ds.updateAt j f) i d hrest hl']
      have hij : ¬i = j := fun h => hji h.symm
      by_cases hm : i ∈ rest
      · simp [List.mem_cons, hm]
      · simp [List.mem_cons, hm, hij]

/-- A duplicate-free selection (by hash identity) has duplicate-free device
handles. -/
theorem nodup_dev_ids (sel : List BaseElement)
    (h : (sel.map BaseElement.hashKey).Nodup) :
    (sel.filterMap (fun b => match b with
      | BaseElement.device i => some i
      | _ => none)).Nodup := by
  induction sel with
  | nil => simp
  | cons b rest ih =>
    rw [List.map_cons] at h
    have h1 := (List.nodup_cons.mp h).1
    have h2 := (List.nodup_cons.mp h).2
    cases b with
    | netEdge e =>
      simpa using ih h2
    | device i =>
      simp only [List.filterMap_cons]
      refine List.nodup_cons.mpr ⟨?_, ih h2⟩
      intro hmem
      obtain ⟨a, ha, hda⟩ := List.mem_filterMap.mp hmem
      have hae : a = BaseElement.device i := by
        cases a <;> simp_all
      subst hae
      exact h1 (by
        simpa [BaseElement.hashKey] using List.mem_map_of_mem BaseElement.hashKey ha)

/-- A device handle is collected from the selection exactly when the device
element is selected. -/
theorem mem_dev_filterMap (sel : List BaseElement) (i : Nat) :
    i ∈ sel.filterMap (fun b => match b with
      | BaseElement.device j => some j
      | _ => none) ↔ BaseElement.device i ∈ sel := by
  constructor
  · intro hmem
    obtain ⟨a, ha, hda⟩ := List.mem_filterMap.mp hmem
    have : a = BaseElement.device i := by cases a <;> simp_all
    exact this ▸ ha
  · intro hmem
    exact List.mem_filterMap.mpr ⟨BaseElement.device i, hmem, rfl⟩

/-- C2. Committing a move: on a left-press in `Moving(Some((p0, p1, t)))`
the handler applies `t` about pivot `p0` composed with the translation
`p1 - p0` to every selected element, runs prune, and goes `Idle`
(src/schematic.rs:449-463, 77-84); in particular a single selected device
dragged from (2,3) to (5,3) with zero rotation has its bounding box
translated by exactly (3,0). -/
theorem move_commit_applies_transform (s : Schematic) (p0 p1 : SSPoint)
    (t : SSTransform) (p : SSPoint)
    (hst : s.state = SchematicState.moving (some (p0, p1, t)))
    (hsel : (s.selected.map BaseElement.hashKey).Nodup) :
    (∀ q, (moveTransform p0 p1 t).transformPoint q =
      ((t.transformPoint (q.sub p0)).add p0).add (p1.sub p0)) ∧
    (s.eventsHandler Event.leftPressed p).1.state = SchematicState.idle ∧
    (s.eventsHandler Event.leftPressed p).2.2 = true ∧
    (s.eventsHandler Event.leftPressed p).1.selected = [] ∧
    (∀ i d, s.devices.lookup i = some d →
      (s.eventsHandler Event.leftPressed p).1.devices.lookup i =
        some (if BaseElement.device i ∈ s.selected
          then d.transformBy (moveTransform p0 p1 t) else d)) ∧
    ((s.eventsHandler Event.leftPressed p).1.nets =
      Nets.prune (s.moveSelected (moveTransform p0 p1 t)).nets
        ((s.eventsHandler Event.leftPressed p).1.devices.portsSsp)) ∧
    ((moveDemo.eventsHandler Event.leftPressed ⟨5, 3⟩).1.devices.lookup 0).map
        (fun d => d.interactable.bounds) =
      some ⟨moveDemoDevice.interactable.bounds.minP.add ⟨3, 0⟩,
            moveDemoDevice.interactable.bounds.maxP.add ⟨3, 0⟩⟩ := by
  have hred : s.eventsHandler Event.leftPressed p =
      ({ (s.moveSelected (moveTransform p0 p1 t)).pruneNets
          with state := SchematicState.idle }, none, true) := by
    simp [Schematic.eventsHandler, Schematic.stateStep, hst]
  refine ⟨moveTransform_apply p0 p1 t, ?_, ?_, ?_, ?_, ?_, ?_⟩
  · rw [hred]
  · rw [hred]
  · rw [hred]
    show ((s.moveSelected (moveTransform p0 p1 t)).pruneNets).selected = []
    simp only [Schematic.pruneNets, Schematic.moveSelected]
    rw [foldl_moveStep_selected]
  · intro i d hl
    rw [hred]
    show ((s.moveSelected (moveTransform p0 p1 t)).pruneNets).devices.lookup i = _
    simp only [Schematic.pruneNets, Schematic.moveSelected]
    rw [foldl_moveStep_devices]
    rw [lookup_updateAt_chain (fun d => d.transformBy (moveTransform p0 p1 t))
      (s.selected.filterMap (fun b => match b with
        | BaseElement.device i => some i
        | _ => none))
      s.devices i d (nodup_dev_ids s.selected hsel) hl]
    by_cases hm : BaseElement.device i ∈ s.selected
    · rw [if_pos ((mem_dev_filterMap s.selected i).mpr hm), if_pos hm]
    · rw [if_neg (fun hc => hm ((mem_dev_filterMap s.selected i).mp hc)), if_neg hm]
  · rw [hred]
    simp [Schematic.pruneNets]
  · decide

/-- Witness for C2 at the §8 drag scenario. -/
theorem move_commit_applies_transform_witness :
    (moveDemo.eventsHandler Event.leftPressed ⟨9, 9⟩).1.state = SchematicState.idle ∧
    ((moveDemo.eventsHandler Event.leftPressed ⟨5, 3⟩).1.devices.lookup 0).map
        (fun d => d.interactable.bounds) =
      some ⟨moveDemoDevice.interactable.bounds.minP.add ⟨3, 0⟩,
            moveDemoDevice.interactable.bounds.maxP.add ⟨3, 0⟩⟩ :=
  ⟨(move_commit_applies_transform moveDemo ⟨2, 3⟩ ⟨5, 3⟩ SSTransform.identity ⟨9, 9⟩
      rfl (by decide)).2.1,
   (move_commit_applies_transform moveDemo ⟨2, 3⟩ ⟨5, 3⟩ SSTransform.identity ⟨9, 9⟩
      rfl (by decide)).2.2.2.2.2.2⟩

/-- The selectable scan finds nothing when the skip exceeds the tally of
elements containing the point; it then reports the full tally. -/
theorem selLoop_none {α : Type} (pred : α → Bool) (emb : α → BaseElement) :
    ∀ (l : List α) (skip count : Nat), count ≤ skip →
      count + (l.filter pred).length ≤ skip →
      selLoop pred emb l skip count = (none, skip, count + (l.filter pred).length) := by
  intro l
  induction l with
  | nil => intro skip count _ _; simp [selLoop]
  | cons a t ih =>
    intro skip count hle hbound
    by_cases hp : pred a
    · have hlen : ((a :: t).filter pred).length = (t.filter pred).length + 1 := by
        simp [hp]
      rw [hlen] at hbound
      have hne : count ≠ skip := by omega
      simp only [selLoop, hp, if_true]
      rw [if_neg (by simpa using hne)]
      rw [ih skip (count + 1) (by omega) (by omega)]
      have : count + 1 + (t.filter pred).length =
          count + ((a :: t).filter pred).length := by
        rw [hlen]; omega
      rw [this]
    · have hp' : pred a = false := by simpa using hp
      have hlen : ((a :: t).filter pred).length = (t.filter pred).length := by
        simp [hp']
      rw [show selLoop pred emb (a :: t) skip count = selLoop pred emb t skip count from by
        simp [selLoop, hp']]
      rw [ih skip count hle (by omega), hlen]

/-- The selectable scan returns the element whose hit index equals the
skip, bumping the skip past it. -/
theorem selLoop_some {α : Type} (pred : α → Bool) (emb : α → BaseElement) :
    ∀ (l : List α) (skip count : Nat), count ≤ skip →
      skip < count + (l.filter pred).length →
      ∃ a, (l.filter pred).get? (skip - count) = some a ∧
        selLoop pred emb l skip count = (some (emb a), skip + 1, skip) := by
  intro l
  induction l with
  | nil => intro skip count _ hb; simp at hb; omega
  | cons a t ih =>
    intro skip count hle hbound
    by_cases hp : pred a
    · have hft : (a :: t).filter pred = a :: t.filter pred := by simp [hp]
      by_cases heq : count = skip
      · subst heq
        refine ⟨a, ?_, ?_⟩
        · simp [hft]
        · simp [selLoop, hp]
      · have hlt : count < skip := by omega
        rw [hft] at hbound
        simp only [List.length_cons] at hbound
        obtain ⟨b, hget, heval⟩ := ih skip (count + 1) (by omega) (by omega)
        refine ⟨b, ?_, ?_⟩
        · rw [hft]
          have : skip - count = (skip - (count + 1)) + 1 := by omega
          rw [this]
          simpa using hget
        · simp only [selLoop, hp, if_true]
          rw [if_neg (by simpa using heq)]
          exact heval
    · have hft : (a :: t).filter pred = t.filter pred := by simp [hp]
      rw [hft] at hbound ⊢
      obtain ⟨b, hget, heval⟩ := ih skip count hle hbound
      have hp' : pred a = false := by simpa using hp
      refine ⟨b, hget, ?_⟩
      rw [show selLoop pred emb (a :: t) skip count = selLoop pred emb t skip count from by
        simp [selLoop, hp']]
      exact heval

/-- Length of the hit list splits over nets and devices. -/
theorem hitsAt_length (s : Schematic) (p : SSPoint) :
    (s.hitsAt p).length =
      (s.nets.edges.filter (fun e => e.containsPt p)).length +
      (s.devices.store.filter (fun e => e.2.interactable.bounds.containsPt p)).length := by
  simp [Schematic.hitsAt]

/-- One pass of the `Schematic::selectable` loop tallies everything when
the skip is at least the number of hits. -/
theorem selOnePass_none (s : Schematic) (p : SSPoint) (skip : Nat)
    (h : (s.hitsAt p).length ≤ skip) :
    s.selOnePass p skip = (none, skip, (s.hitsAt p).length) := by
  have hlen := hitsAt_length s p
  simp only [Schematic.selOnePass, Nets.selectable]
  rw [selLoop_none _ _ s.nets.edges skip 0 (Nat.zero_le _) (by omega)]
  show Devices.selectable s.devices p skip
    (0 + (s.nets.edges.filter (fun e => e.containsPt p)).length) = _
  simp only [Devices.selectable]
  rw [selLoop_none _ _ s.devices.store skip _ (by omega) (by omega)]
  simp only [Prod.mk.injEq]
  refine ⟨trivial, trivial, by omega⟩

/-- One pass of the `Schematic::selectable` loop selects the hit indexed by
the skip when in range. -/
theorem selOnePass_some (s : Schematic) (p : SSPoint) (skip : Nat)
    (h : skip < (s.hitsAt p).length) :
    ∃ b, (s.hitsAt p).get? skip = some b ∧
      s.selOnePass p skip = (some b, skip + 1, skip) := by
  have hlen := hitsAt_length s p
  by_cases h1 : skip < (s.nets.edges.filter (fun e => e.containsPt p)).length
  · obtain ⟨a, hget, heval⟩ :=
      selLoop_some (fun e => e.containsPt p) BaseElement.netEdge s.nets.edges skip 0
        (Nat.zero_le _) (by omega)
    rw [Nat.sub_zero] at hget
    refine ⟨BaseElement.netEdge a, ?_, ?_⟩
    · rw [Schematic.hitsAt,
        List.get?_append (by simpa using h1), List.get?_map, hget]
      rfl
    · simp only [Schematic.selOnePass, Nets.selectable]
      rw [heval]
  · push_neg at h1
    obtain ⟨en, hget, heval⟩ :=
      selLoop_some (fun e => e.2.interactable.bounds.containsPt p)
        (fun e => BaseElement.device e.1) s.devices.store skip
        (0 + (s.nets.edges.filter (fun e => e.containsPt p)).length)
        (by omega) (by omega)
    refine ⟨BaseElement.device en.1, ?_, ?_⟩
    · rw [Schematic.hitsAt,
        List.get?_append_right (by simpa using h1), List.get?_map]
      have : skip - ((s.nets.edges.filter (fun e => e.containsPt p)).map
          BaseElement.netEdge).length =
          skip - (0 + (s.nets.edges.filter (fun e => e.containsPt p)).length) := by
        simp
      rw [this, hget]
      rfl
    · simp only [Schematic.selOnePass, Nets.selectable]
      rw [selLoop_none _ _ s.nets.edges skip 0 (Nat.zero_le _) (by omega)]
      show Devices.selectable s.devices p skip
        (0 + (s.nets.edges.filter (fun e => e.containsPt p)).length) = _
      simp only [Devices.selectable]
      rw [heval]

/-- The fueled `Schematic::selectable` loop, at adequate fuel, returns
nothing (zeroing the skip) when nothing contains the point, and otherwise
the hit indexed by the skip modulo the hit count, bumping the skip past
it. -/
theorem selectableFuel_spec (s : Schematic) (p : SSPoint) :
    ∀ (fuel skip : Nat), skip < fuel →
      ((s.hitsAt p).length = 0 → s.selectableFuel p fuel skip = (none, 0)) ∧
      ((s.hitsAt p).length ≠ 0 →
        ∃ b, (s.hitsAt p).get? (skip % (s.hitsAt p).length) = some b ∧
          s.selectableFuel p fuel skip =
            (some b, skip % (s.hitsAt p).length + 1)) := by
  intro fuel
  induction fuel with
  | zero => intro skip h; omega
  | succ f ih =>
    intro skip hlt
    constructor
    · intro hz
      have hnone := selOnePass_none s p skip (by omega)
      simp only [Schematic.selectableFuel]
      rw [hnone, hz]
      rfl
    · intro hnz
      by_cases hc : skip < (s.hitsAt p).length
      · obtain ⟨b, hget, heval⟩ := selOnePass_some s p skip hc
        rw [Nat.mod_eq_of_lt hc]
        refine ⟨b, hget, ?_⟩
        simp only [Schematic.selectableFuel]
        rw [heval]
      · push_neg at hc
        have hnone := selOnePass_none s p skip hc
        have hmod : skip % (s.hitsAt p).length =
            (skip - (s.hitsAt p).length) % (s.hitsAt p).length :=
          Nat.mod_eq_sub_mod hc
        obtain ⟨b, hget, heval⟩ := (ih (skip - (s.hitsAt p).length) (by omega)).2 hnz
        refine ⟨b, by rw [hmod]; exact hget, ?_⟩
        simp only [Schematic.selectableFuel]
        rw [hnone]
        have hne : ((s.hitsAt p).length == 0) = false := by simpa using hnz
        show (if (s.hitsAt p).length == 0 then (none, 0)
          else s.selectableFuel p f (skip - (s.hitsAt p).length)) = _
        rw [hne]
        rw [if_neg (by simp), hmod]
        exact heval

/-- `Schematic::selectable` with empty and nonempty hit lists: always
terminates with the skip-mod-count hit or a zeroed skip. -/
theorem selectableGo_spec (s : Schematic) (p : SSPoint) (skip : Nat) :
    ((s.hitsAt p).length = 0 → s.selectableGo p skip = (none, 0)) ∧
    ((s.hitsAt p).length ≠ 0 →
      ∃ b, (s.hitsAt p).get? (skip % (s.hitsAt p).length) = some b ∧
        s.selectableGo p skip = (some b, skip % (s.hitsAt p).length + 1)) :=
  selectableFuel_spec s p (skip + 1) skip (by omega)

/-- Clearing the graph's tentative flags leaves none set. -/
theorem clearT_tentatives (n : Nets) : n.clearT.tentatives = [] := by
  simp only [Nets.clearT, Nets.tentatives]
  refine List.filter_eq_nil_iff.mpr ?_
  intro a ha
  obtain ⟨x, _, rfl⟩ := List.mem_map.mp ha
  simp

/-- Clearing the registry's tentative flags leaves none set. -/
theorem devices_clearT_tentatives (ds : Devices) : ds.clearT.tentatives = [] := by
  simp only [Devices.clearT, Devices.tentatives]
  rw [List.filter_eq_nil_iff.mpr ?_]
  · rfl
  · intro a ha
    obtain ⟨x, _, rfl⟩ := List.mem_map.mp ha
    simp

/-- Clearing tentative flags preserves the vertex-pair keys. -/
theorem clearT_keyList (n : Nets) : keyList n.clearT.edges = keyList n.edges := by
  simp [Nets.clearT, keyList, NetEdge.key, Function.comp]

/-- Clearing tentative flags preserves the registry handles. -/
theorem clearT_ids (ds : Devices) : ds.clearT.store.map Prod.fst = ds.store.map Prod.fst := by
  simp [Devices.clearT]

/-- Replacing the edge keyed like `e` with a flagged clone leaves exactly
that clone flagged, in a flag-clear duplicate-free graph. -/
theorem tent_filter_replace (e e' : NetEdge) (he' : e'.tentative = true) :
    ∀ l : List NetEdge, (l.map NetEdge.key).Nodup →
      (∀ x ∈ l, x.tentative = false) → e ∈ l →
      (l.map (fun x => if x.src == e.src && x.dst == e.dst then e' else x)).filter
        (fun x => x.tentative) = [e'] := by
  intro l
  induction l with
  | nil => intro _ _ hmem; cases hmem
  | cons x t ih =>
    intro hnd hall hmem
    rw [List.map_cons] at hnd
    have hnd1 := (List.nodup_cons.mp hnd).1
    have hnd2 := (List.nodup_cons.mp hnd).2
    by_cases hk : (x.src == e.src && x.dst == e.dst) = true
    · have hkey : NetEdge.key x = NetEdge.key e := by
        simp only [Bool.and_eq_true, beq_iff_eq] at hk
        simp [NetEdge.key, hk.1, hk.2]
      have hrest : (t.map (fun y => if y.src == e.src && y.dst == e.dst then e' else y)) = t := by
        have hcg : ∀ y ∈ t, (if y.src == e.src && y.dst == e.dst then e' else y) = id y := by
          intro y hy
          have : ¬(y.src == e.src && y.dst == e.dst) = true := by
            intro hyk
            apply hnd1
            have hyx : NetEdge.key y = NetEdge.key x := by
              simp only [Bool.and_eq_true, beq_iff_eq] at hyk
              rw [hkey]
              simp [NetEdge.key, hyk.1, hyk.2]
            rw [← hyx]
            exact List.mem_map_of_mem NetEdge.key hy
          simp [this]
        rw [List.map_congr_left hcg, List.map_id]
      rw [List.map_cons, if_pos hk, hrest]
      rw [List.filter_cons_of_pos (by simpa using he')]
      rw [List.filter_eq_nil_iff.mpr
        (fun a ha => by simp [hall a (List.mem_cons_of_mem x ha)])]
    · have hex : e ∈ t := by
        rcases List.mem_cons.mp hmem with rfl | hmem'
        · exact absurd (by simp) hk
        · exact hmem'
      rw [List.map_cons, if_neg hk]
      rw [List.filter_cons_of_neg (by simp [hall x (List.mem_cons_self x t)])]
      exact ih hnd2 (fun a ha => hall a (List.mem_cons_of_mem x ha)) hex

/-- The flagged graph of `tentative_by_sspoint`'s net-edge branch carries
exactly one tentative edge. -/
theorem addEdge_flag_tentatives (n : Nets) (e : NetEdge)
    (hmem : e ∈ n.edges) (hnd : (n.edges.map NetEdge.key).Nodup)
    (hall : ∀ x ∈ n.edges, x.tentative = false) :
    (n.addEdge { e with tentative := true }).tentatives =
      [{ e with tentative := true }] := by
  obtain ⟨l⟩ := n
  simp only [Nets.addEdge]
  rw [if_pos (List.any_eq_true.mpr ⟨e, hmem, by simp⟩)]
  exact tent_filter_replace e { e with tentative := true } rfl l hnd hall hmem

/-- Setting one handle's tentative flag leaves exactly that handle flagged,
in a flag-clear duplicate-free registry. -/
theorem setTent_tentatives (ds : Devices) (i : Nat)
    (hnd : (ds.store.map Prod.fst).Nodup)
    (hall : ∀ x ∈ ds.store, x.2.interactable.tentative = false)
    (hex : ∃ en ∈ ds.store, en.1 = i) :
    (ds.setTent i).tentatives = [i] := by
  obtain ⟨st, nid, wr, wg, wv⟩ := ds
  simp only [Devices.setTent, Devices.updateAt, Devices.tentatives] at *
  induction st with
  | nil => obtain ⟨en, hmem, _⟩ := hex; cases hmem
  | cons x t ih =>
    rw [List.map_cons] at hnd
    have hnd1 := (List.nodup_cons.mp hnd).1
    have hnd2 := (List.nodup_cons.mp hnd).2
    by_cases hk : (x.1 == i) = true
    · have hxi : x.1 = i := by simpa using hk
      have hrest : (t.map (fun en => if en.1 == i then
          (en.1, { en.2 with interactable := { en.2.interactable with tentative := true } })
          else en)) = t := by
        have hcg : ∀ y ∈ t, (if y.1 == i then
            (y.1, { y.2 with interactable := { y.2.interactable with tentative := true } })
            else y) = id y := by
          intro y hy
          have : ¬(y.1 == i) = true := by
            intro hyk
            apply hnd1
            rw [← hxi] at hyk
            have hyx : y.1 = x.1 := by simpa using hyk
            rw [← hyx]
            exact List.mem_map_of_mem Prod.fst hy
          simp [this]
        rw [List.map_congr_left hcg, List.map_id]
      rw [List.map_cons, if_pos hk, hrest]
      rw [List.filter_cons_of_pos (by simp)]
      rw [List.filter_eq_nil_iff.mpr (fun a ha => by simp [hall a (List.mem_cons_of_mem x ha)])]
      simp [hxi]
    · have hex' : ∃ en ∈ t, en.1 = i := by
        obtain ⟨en, hmem, hi⟩ := hex
        rcases List.mem_cons.mp hmem with rfl | hmem'
        · exact absurd (by simp [hi]) hk
        · exact ⟨en, hmem', hi⟩
      rw [List.map_cons, if_neg hk]
      rw [List.filter_cons_of_neg (by simp [hall x (List.mem_cons_self x t)])]
      exact ih hnd2 (fun a ha => hall a (List.mem_cons_of_mem x ha)) hex'

/-- Membership in the hit list comes from a containing edge or device. -/
theorem hitsAt_mem (s : Schematic) (p : SSPoint) (b : BaseElement)
    (h : b ∈ s.hitsAt p) :
    (∃ e, b = BaseElement.netEdge e ∧ e ∈ s.nets.edges ∧ e.containsPt p = true) ∨
    (∃ en, b = BaseElement.device en.1 ∧ en ∈ s.devices.store ∧
      en.2.interactable.bounds.containsPt p = true) := by
  rcases List.mem_append.mp h with hn | hd
  · obtain ⟨e, he, rfl⟩ := List.mem_map.mp hn
    exact Or.inl ⟨e, rfl, (List.mem_filter.mp he).1, (List.mem_filter.mp he).2⟩
  · obtain ⟨en, hen, rfl⟩ := List.mem_map.mp hd
    exact Or.inr ⟨en, rfl, (List.mem_filter.mp hen).1, (List.mem_filter.mp hen).2⟩

/-- No pointer-move arm of the state/event match touches the feedback
string computed by the hover recompute. -/
theorem stateStep_ret (st : SchematicState) (s0 : Schematic) (ret : Option String)
    (p : SSPoint) :
    (Schematic.stateStep st Event.cursorMoved s0 ret p).2.1 = ret := by
  cases st with
  | wiring ws => rcases ws with _ | ⟨g, prev⟩ <;> simp [Schematic.stateStep]
  | idle => simp [Schematic.stateStep]
  | selecting b => simp [Schematic.stateStep]
  | moving m => rcases m with _ | ⟨p0, p1, t⟩ <;> simp [Schematic.stateStep]

/-- The cleared graph of `clear_tentatives` keeps its vertex-pair
uniqueness. -/
theorem clearTent_nodupKeys (s : Schematic) (h : nodupKeys s.nets.edges) :
    nodupKeys s.clearTent.nets.edges := by
  show (keyList s.nets.clearT.edges).Nodup
  rw [clearT_keyList]
  exact h

/-- The cleared registry of `clear_tentatives` keeps its handle
uniqueness. -/
theorem clearTent_nodupIds (s : Schematic) (h : nodupIds s.devices) :
    (s.clearTent.devices.store.map Prod.fst).Nodup := by
  show (s.devices.clearT.store.map Prod.fst).Nodup
  rw [clearT_ids]
  exact h

/-- Every edge is flag-free after `clear_tentatives`. -/
theorem clearTent_edges_clear (s : Schematic) :
    ∀ x ∈ s.clearTent.nets.edges, x.tentative = false := by
  intro x hx
  obtain ⟨y, _, rfl⟩ := List.mem_map.mp hx
  rfl

/-- Every registry entry is flag-free after `clear_tentatives`. -/
theorem clearTent_store_clear (s : Schematic) :
    ∀ x ∈ s.clearTent.devices.store, x.2.interactable.tentative = false := by
  intro x hx
  obtain ⟨y, _, rfl⟩ := List.mem_map.mp hx
  rfl

/-- C7. Every pointer-move event, in every interaction state, first clears
all tentative flags and then sets at most one — the element chosen by the
skip counter — and the string the handler returns is exactly the hover
recompute's: the flagged element's net label when it is a labeled net edge,
nothing otherwise (src/schematic.rs:333-338, 128-146). -/
theorem pointer_move_hover_recompute (s : Schematic) (p : SSPoint) (skip : Nat)
    (hkeys : nodupKeys s.nets.edges) (hids : nodupIds s.devices) :
    (s.eventsHandler Event.cursorMoved p).2.1 =
      (s.tentativeBySspoint p (s.selskip - 1)).2.2 ∧
    (s.tentativeBySspoint p skip).1.tentCount ≤ 1 ∧
    (∀ e skip', s.clearTent.selectableGo p skip = (some (BaseElement.netEdge e), skip') →
      (s.tentativeBySspoint p skip).2.2 = e.label) ∧
    (∀ i skip', s.clearTent.selectableGo p skip = (some (BaseElement.device i), skip') →
      (s.tentativeBySspoint p skip).2.2 = none) ∧
    (∀ skip', s.clearTent.selectableGo p skip = (none, skip') →
      (s.tentativeBySspoint p skip).2.2 = none ∧
      (s.tentativeBySspoint p skip).1.tentCount = 0) := by
  refine ⟨?_, ?_, ?_, ?_, ?_⟩
  · simp only [Schematic.eventsHandler]
    rw [stateStep_ret]
  · by_cases hN : (s.clearTent.hitsAt p).length = 0
    · have heval := (selectableGo_spec s.clearTent p skip).1 hN
      simp only [Schematic.tentativeBySspoint, heval]
      simp [Schematic.tentCount, Schematic.flaggedKeys, Schematic.clearTent,
        clearT_tentatives, devices_clearT_tentatives]
    · obtain ⟨b, hget, heval⟩ := (selectableGo_spec s.clearTent p skip).2 hN
      have hbmem := List.get?_mem hget
      rcases hitsAt_mem _ _ _ hbmem with ⟨e, rfl, hmem, hcont⟩ | ⟨en, rfl, hmem, hcont⟩
      · simp only [Schematic.tentativeBySspoint, heval]
        simp only [Schematic.tentCount, Schematic.flaggedKeys,
          addEdge_flag_tentatives s.clearTent.nets e hmem (clearTent_nodupKeys s hkeys)
            (clearTent_edges_clear s)]
        simp [Schematic.clearTent, devices_clearT_tentatives]
      · simp only [Schematic.tentativeBySspoint, heval]
        simp only [Schematic.tentCount, Schematic.flaggedKeys,
          setTent_tentatives s.clearTent.devices en.1 (clearTent_nodupIds s hids)
            (clearTent_store_clear s) ⟨en, hmem, rfl⟩]
        simp [Schematic.clearTent, clearT_tentatives]
  · intro e skip' hsel
    simp [Schematic.tentativeBySspoint, hsel]
  · intro i skip' hsel
    simp [Schematic.tentativeBySspoint, hsel]
  · intro skip' hsel
    simp only [Schematic.tentativeBySspoint, hsel]
    simp [Schematic.tentCount, Schematic.flaggedKeys, Schematic.clearTent,
      clearT_tentatives, devices_clearT_tentatives]

/-- Witness for C7 at a concrete schematic and point. -/
theorem pointer_move_hover_recompute_witness :
    (cycleDemo.eventsHandler Event.cursorMoved ⟨1, 0⟩).2.1 =
      (cycleDemo.tentativeBySspoint ⟨1, 0⟩ (cycleDemo.selskip - 1)).2.2 ∧
    (cycleDemo.tentativeBySspoint ⟨1, 0⟩ 0).1.tentCount ≤ 1 :=
  ⟨(pointer_move_hover_recompute cycleDemo ⟨1, 0⟩ 0 (by unfold nodupKeys keyList; decide)
      (by unfold nodupIds; decide)).1,
   (pointer_move_hover_recompute cycleDemo ⟨1, 0⟩ 0 (by unfold nodupKeys keyList; decide)
      (by unfold nodupIds; decide)).2.1⟩

/-- A per-element transformation preserving the hit predicate and the
projection is invisible to projected hit lists. -/
theorem filter_map_proj {α γ : Type} (f : α → α) (pred : α → Bool) (proj : α → γ)
    (hf1 : ∀ a, pred (f a) = pred a) (hf2 : ∀ a, proj (f a) = proj a) :
    ∀ l : List α, ((l.map f).filter pred).map proj = (l.filter pred).map proj := by
  intro l
  induction l with
  | nil => rfl
  | cons a t ih =>
    rw [List.map_cons]
    by_cases hp : pred a = true
    · rw [List.filter_cons_of_pos (by rw [hf1]; exact hp),
        List.filter_cons_of_pos hp, List.map_cons, List.map_cons, hf2, ih]
    · rw [List.filter_cons_of_neg (by rw [hf1]; exact hp),
        List.filter_cons_of_neg hp, ih]

/-- A key-preserving edge map preserves the key list. -/
theorem keyList_map (f : NetEdge → NetEdge)
    (hf : ∀ e, NetEdge.key (f e) = NetEdge.key e) (l : List NetEdge) :
    keyList (l.map f) = keyList l := by
  simp only [keyList, List.map_map]
  exact List.map_congr_left (fun a _ => hf a)

/-- A handle-preserving entry map preserves the handle list. -/
theorem ids_map (f : Nat × Device → Nat × Device)
    (hf : ∀ en, (f en).1 = en.1) (l : List (Nat × Device)) :
    (l.map f).map Prod.fst = l.map Prod.fst := by
  simp only [List.map_map]
  exact List.map_congr_left (fun a _ => hf a)

/-- Clearing tentative flags does not change the identities of the
elements under the cursor. -/
theorem clearTent_hitKeys (s : Schematic) (p : SSPoint) :
    s.clearTent.hitKeys p = s.hitKeys p := by
  simp only [Schematic.hitKeys, Schematic.hitsAt, Schematic.clearTent,
    Nets.clearT, Devices.clearT, List.map_append, List.map_map]
  congr 1
  · exact filter_map_proj (fun e => { e with tentative := false })
      (fun e => e.containsPt p) (BaseElement.hashKey ∘ BaseElement.netEdge)
      (fun a => rfl) (fun a => rfl) s.nets.edges
  · exact filter_map_proj
      (fun en => (en.1, { en.2 with interactable :=
        { en.2.interactable with tentative := false } }))
      (fun en => en.2.interactable.bounds.containsPt p)
      (BaseElement.hashKey ∘ fun en => BaseElement.device en.1)
      (fun a => rfl) (fun a => rfl) s.devices.store

/-- Hit-key lists have the hit list's length. -/
theorem hitKeys_length (s : Schematic) (p : SSPoint) :
    (s.hitKeys p).length = (s.hitsAt p).length := by
  simp [Schematic.hitKeys]

/-- Under the graph and registry uniqueness invariants, the hit keys are
pairwise distinct. -/
theorem hitKeys_nodup (s : Schematic) (p : SSPoint)
    (hkeys : nodupKeys s.nets.edges) (hids : nodupIds s.devices) :
    (s.hitKeys p).Nodup := by
  simp only [Schematic.hitKeys, Schematic.hitsAt, List.map_append, List.map_map]
  refine List.Nodup.append ?_ ?_ ?_
  · have hsub : (s.nets.edges.filter (fun e => e.containsPt p)).map NetEdge.key
        |>.Sublist (s.nets.edges.map NetEdge.key) :=
      List.Sublist.map NetEdge.key (List.filter_sublist _)
    have hnd : ((s.nets.edges.filter (fun e => e.containsPt p)).map NetEdge.key).Nodup :=
      List.Sublist.nodup hsub hkeys
    have : ((s.nets.edges.filter (fun e => e.containsPt p)).map
        (BaseElement.hashKey ∘ BaseElement.netEdge)) =
        ((s.nets.edges.filter (fun e => e.containsPt p)).map
          (Sum.inl ∘ NetEdge.key)) := by
      exact List.map_congr_left (fun a _ => rfl)
    rw [this, ← List.map_map]
    exact hnd.map (fun a b h => Sum.inl.inj h)
  · have hsub : ((s.devices.store.filter
        (fun e => e.2.interactable.bounds.containsPt p)).map Prod.fst).Sublist
        (s.devices.store.map Prod.fst) :=
      List.Sublist.map Prod.fst (List.filter_sublist _)
    have hnd := List.Sublist.nodup hsub hids
    have : ((s.devices.store.filter
        (fun e => e.2.interactable.bounds.containsPt p)).map
          (BaseElement.hashKey ∘ fun e => BaseElement.device e.1)) =
        ((s.devices.store.filter
          (fun e => e.2.interactable.bounds.containsPt p)).map
            (Sum.inr ∘ Prod.fst)) := by
      exact List.map_congr_left (fun a _ => rfl)
    rw [this, ← List.map_map]
    exact hnd.map (fun a b h => Sum.inr.inj h)
  · intro x hx hy
    obtain ⟨e, _, rfl⟩ := List.mem_map.mp hx
    obtain ⟨en, _, hcontra⟩ := List.mem_map.mp hy
    exact absurd hcontra (by simp [BaseElement.hashKey])

/-- Flagging an existing vertex pair replaces the keyed edge pointwise. -/
theorem addEdge_replace (n : Nets) (e' : NetEdge)
    (h : n.edges.any (fun x => x.src == e'.src && x.dst == e'.dst) = true) :
    (n.addEdge e').edges =
      n.edges.map (fun x => if x.src == e'.src && x.dst == e'.dst then e' else x) := by
  simp only [Nets.addEdge, h, if_true]

/-- One "cycle" command in `Idle`: flags exactly the hit indexed by the
skip counter modulo the hit count, bumps the counter past it, and leaves
the state, the hit identities, and the uniqueness invariants intact. -/
theorem cycle_step (s : Schematic) (p : SSPoint)
    (hst : s.state = SchematicState.idle)
    (hkeys : nodupKeys s.nets.edges) (hids : nodupIds s.devices)
    (hN : (s.hitKeys p).length ≠ 0) :
    ∃ key, (s.hitKeys p).get? (s.selskip % (s.hitKeys p).length) = some key ∧
      (s.eventsHandler Event.keyC p).1.flaggedKeys = [key] ∧
      (s.eventsHandler Event.keyC p).1.selskip =
        s.selskip % (s.hitKeys p).length + 1 ∧
      (s.eventsHandler Event.keyC p).1.state = SchematicState.idle ∧
      (s.eventsHandler Event.keyC p).1.hitKeys p = s.hitKeys p ∧
      nodupKeys (s.eventsHandler Event.keyC p).1.nets.edges ∧
      nodupIds (s.eventsHandler Event.keyC p).1.devices := by
  have hred : s.eventsHandler Event.keyC p =
      ((s.tentativeNextBySsp p).1, (s.tentativeNextBySsp p).2, false) := by
    simp [Schematic.eventsHandler, Schematic.stateStep, hst]
  have hlen : (s.clearTent.hitsAt p).length = (s.hitKeys p).length := by
    have h1 := congrArg List.length (clearTent_hitKeys s p)
    rw [hitKeys_length] at h1
    exact h1
  have hN' : (s.clearTent.hitsAt p).length ≠ 0 := by rw [hlen]; exact hN
  obtain ⟨b, hget, heval⟩ := (selectableGo_spec s.clearTent p s.selskip).2 hN'
  have hmapkeys : (s.clearTent.hitsAt p).map BaseElement.hashKey = s.hitKeys p :=
    clearTent_hitKeys s p
  have hkeyget : (s.hitKeys p).get? (s.selskip % (s.hitKeys p).length) =
      some b.hashKey := by
    calc (s.hitKeys p).get? (s.selskip % (s.hitKeys p).length)
        = ((s.clearTent.hitsAt p).map BaseElement.hashKey).get?
            (s.selskip % (s.clearTent.hitsAt p).length) := by rw [hmapkeys, hlen]
      _ = ((s.clearTent.hitsAt p).get?
            (s.selskip % (s.clearTent.hitsAt p).length)).map BaseElement.hashKey := by
          rw [List.get?_map]
      _ = some b.hashKey := by rw [hget]; rfl
  have hbmem := List.get?_mem hget
  refine ⟨b.hashKey, hkeyget, ?_⟩
  rcases hitsAt_mem _ _ _ hbmem with ⟨e, rfl, hmem, hcont⟩ | ⟨en, rfl, hmem, hcont⟩
  · -- the flagged element is a net edge
    have hr : s.tentativeNextBySsp p =
        ({ s.clearTent with
            nets := s.clearTent.nets.addEdge { e with tentative := true },
            selskip := s.selskip % (s.clearTent.hitsAt p).length + 1 }, e.label) := by
      simp only [Schematic.tentativeNextBySsp, Schematic.tentativeBySspoint, heval]
    have hany : s.clearTent.nets.edges.any
        (fun x => x.src == e.src && x.dst == e.dst) = true :=
      List.any_eq_true.mpr ⟨e, hmem, by simp⟩
    have hmap := addEdge_replace s.clearTent.nets { e with tentative := true } hany
    refine ⟨?_, ?_, ?_, ?_, ?_, ?_⟩
    · rw [hred]
      rw [hr]
      simp only [Schematic.flaggedKeys]
      rw [addEdge_flag_tentatives s.clearTent.nets e hmem (clearTent_nodupKeys s hkeys)
        (clearTent_edges_clear s)]
      have hdev : s.clearTent.devices.tentatives = [] := devices_clearT_tentatives s.devices
      simp [BaseElement.hashKey, hdev]
    · rw [hred, hr]
      simp [hlen]
    · rw [hred, hr]
      exact hst
    · rw [hred, hr]
      show Schematic.hitKeys { s.clearTent with
        nets := s.clearTent.nets.addEdge { e with tentative := true },
        selskip := s.selskip % (s.clearTent.hitsAt p).length + 1 } p = _
      simp only [Schematic.hitKeys, Schematic.hitsAt, List.map_append, List.map_map]
      rw [hmap]
      have hnet := filter_map_proj
        (fun x => if x.src == e.src && x.dst == e.dst then
          { e with tentative := true } else x)
        (fun x => x.containsPt p) (BaseElement.hashKey ∘ BaseElement.netEdge)
        (fun a => by
          by_cases h : (a.src == e.src && a.dst == e.dst) = true
          · simp only [if_pos h]
            simp only [Bool.and_eq_true, beq_iff_eq] at h
            simp [NetEdge.containsPt, h.1, h.2]
          · simp [h])
        (fun a => by
          by_cases h : (a.src == e.src && a.dst == e.dst) = true
          · simp only [if_pos h]
            simp only [Bool.and_eq_true, beq_iff_eq] at h
            simp [BaseElement.hashKey, h.1, h.2]
          · simp [h])
        s.clearTent.nets.edges
      rw [hnet]
      have hclear := clearTent_hitKeys s p
      simp only [Schematic.hitKeys, Schematic.hitsAt, List.map_append,
        List.map_map] at hclear
      exact hclear
    · rw [hred, hr]
      show nodupKeys (Nets.addEdge s.clearTent.nets { e with tentative := true }).edges
      unfold nodupKeys
      show (keyList (Nets.addEdge s.clearTent.nets { e with tentative := true }).edges).Nodup
      rw [hmap]
      rw [keyList_map _ (fun x => by
        by_cases h : (x.src == e.src && x.dst == e.dst) = true
        · simp only [if_pos h]
          simp only [Bool.and_eq_true, beq_iff_eq] at h
          simp [NetEdge.key, h.1, h.2]
        · simp [h])]
      show (keyList s.nets.clearT.edges).Nodup
      rw [clearT_keyList]
      exact hkeys
    · rw [hred, hr]
      show nodupIds s.devices.clearT
      unfold nodupIds
      rw [clearT_ids]
      exact hids
  · -- the flagged element is a device
    have hr : s.tentativeNextBySsp p =
        ({ s.clearTent with
            devices := s.clearTent.devices.setTent en.1,
            selskip := s.selskip % (s.clearTent.hitsAt p).length + 1 }, none) := by
      simp only [Schematic.tentativeNextBySsp, Schematic.tentativeBySspoint, heval]
    refine ⟨?_, ?_, ?_, ?_, ?_, ?_⟩
    · rw [hred, hr]
      simp only [Schematic.flaggedKeys]
      rw [setTent_tentatives s.clearTent.devices en.1 (clearTent_nodupIds s hids)
        (clearTent_store_clear s) ⟨en, hmem, rfl⟩]
      have hnet : s.clearTent.nets.tentatives = [] := clearT_tentatives s.nets
      simp [BaseElement.hashKey, hnet]
    · rw [hred, hr]
      simp [hlen]
    · rw [hred, hr]
      exact hst
    · rw [hred, hr]
      show Schematic.hitKeys { s.clearTent with
        devices := s.clearTent.devices.setTent en.1,
        selskip := s.selskip % (s.clearTent.hitsAt p).length + 1 } p = _
      simp only [Schematic.hitKeys, Schematic.hitsAt, List.map_append, List.map_map,
        Devices.setTent, Devices.updateAt]
      have hdev := filter_map_proj
        (fun x : Nat × Device => if x.1 == en.1 then
          (x.1, { x.2 with interactable :=
            { x.2.interactable with tentative := true } }) else x)
        (fun x => x.2.interactable.bounds.containsPt p)
        (BaseElement.hashKey ∘ fun x => BaseElement.device x.1)
        (fun a => by by_cases h : (a.1 == en.1) = true <;> simp [h])
        (fun a => by by_cases h : (a.1 == en.1) = true <;> simp [h, BaseElement.hashKey])
        s.clearTent.devices.store
      rw [hdev]
      have hclear := clearTent_hitKeys s p
      simp only [Schematic.hitKeys, Schematic.hitsAt, List.map_append,
        List.map_map] at hclear
      exact hclear
    · rw [hred, hr]
      show nodupKeys s.nets.clearT.edges
      unfold nodupKeys
      rw [clearT_keyList]
      exact hkeys
    · rw [hred, hr]
      show nodupIds (Devices.setTent s.clearTent.devices en.1)
      unfold nodupIds
      show ((Devices.setTent s.clearTent.devices en.1).store.map Prod.fst).Nodup
      simp only [Devices.setTent, Devices.updateAt]
      rw [ids_map _ (fun x => by by_cases h : (x.1 == en.1) = true <;> simp [h])]
      show (s.devices.clearT.store.map Prod.fst).Nodup
      rw [clearT_ids]
      exact hids

/-- Invariants of iterated cycling: the schematic stays idle with the same
hit identities and uniqueness properties, and its skip counter tracks
`selskip + k` modulo the hit count. -/
theorem cycle_invariant (s : Schematic) (p : SSPoint)
    (hst : s.state = SchematicState.idle)
    (hkeys : nodupKeys s.nets.edges) (hids : nodupIds s.devices)
    (hN : (s.hitKeys p).length ≠ 0) :
    ∀ k : Nat,
      (s.cycleIter p k).state = SchematicState.idle ∧
      nodupKeys (s.cycleIter p k).nets.edges ∧
      nodupIds (s.cycleIter p k).devices ∧
      (s.cycleIter p k).hitKeys p = s.hitKeys p ∧
      (s.cycleIter p k).selskip % (s.hitKeys p).length =
        (s.selskip + k) % (s.hitKeys p).length := by
  intro k
  induction k with
  | zero => exact ⟨hst, hkeys, hids, rfl, rfl⟩
  | succ k ih =>
    obtain ⟨ih1, ih2, ih3, ih4, ih5⟩ := ih
    have hNk : ((s.cycleIter p k).hitKeys p).length ≠ 0 := by rw [ih4]; exact hN
    obtain ⟨key, hget, hflag, hselskip, hstate, hhits, hnd1, hnd2⟩ :=
      cycle_step (s.cycleIter p k) p ih1 ih2 ih3 hNk
    refine ⟨hstate, hnd1, hnd2, ?_, ?_⟩
    · show ((s.cycleIter p k).eventsHandler Event.keyC p).1.hitKeys p = _
      rw [hhits, ih4]
    · show ((s.cycleIter p k).eventsHandler Event.keyC p).1.selskip % _ = _
      rw [hselskip, ih4]
      rw [ih5]
      rw [Nat.mod_add_mod, Nat.add_assoc]

/-- The element flagged by the (k+1)-st cycle command is the hit indexed
`selskip + k` modulo the hit count. -/
theorem cycle_flag (s : Schematic) (p : SSPoint)
    (hst : s.state = SchematicState.idle)
    (hkeys : nodupKeys s.nets.edges) (hids : nodupIds s.devices)
    (hN : (s.hitKeys p).length ≠ 0) (k : Nat) :
    ∃ key, (s.hitKeys p).get? ((s.selskip + k) % (s.hitKeys p).length) = some key ∧
      (s.cycleIter p (k + 1)).flaggedKeys = [key] := by
  obtain ⟨ih1, ih2, ih3, ih4, ih5⟩ := cycle_invariant s p hst hkeys hids hN k
  have hNk : ((s.cycleIter p k).hitKeys p).length ≠ 0 := by rw [ih4]; exact hN
  obtain ⟨key, hget, hflag, _, _, _, _, _⟩ :=
    cycle_step (s.cycleIter p k) p ih1 ih2 ih3 hNk
  rw [ih4] at hget
  rw [ih5] at hget
  exact ⟨key, hget, hflag⟩

/-- Indices of the cycling schedule are pairwise distinct within one
period. -/
theorem cycle_idx_inj (a j k N : Nat) (hj : j < N) (hk : k < N) (hne : j ≠ k)
    (h : (a + j) % N = (a + k) % N) : False := by
  have hmod : j ≡ k [MOD N] :=
    Nat.ModEq.add_left_cancel (Nat.ModEq.refl a) h
  have : j % N = k % N := hmod
  rw [Nat.mod_eq_of_lt hj, Nat.mod_eq_of_lt hk] at this
  exact hne this

/-- C4. Skip-cycling: with N overlapping selectable elements at a fixed
point, successive cycle commands in `Idle` flag the hits one after another
in scan order — each of the N exactly once per N invocations — and the
schedule wraps with period N; the selectable lookup itself is total (the
wrapping loop of src/schematic.rs:255-271 terminates, embedded via
`Schematic.selectableGo`, whose value `selectableGo_spec` pins down for
every skip). -/
theorem skip_cycling_covers_hits (s : Schematic) (p : SSPoint)
    (hst : s.state = SchematicState.idle)
    (hkeys : nodupKeys s.nets.edges) (hids : nodupIds s.devices)
    (hN : (s.hitKeys p).length ≠ 0) :
    (∀ k, ∃ key,
      (s.hitKeys p).get? ((s.selskip + k) % (s.hitKeys p).length) = some key ∧
      (s.cycleIter p (k + 1)).flaggedKeys = [key]) ∧
    (∀ j k, j < (s.hitKeys p).length → k < (s.hitKeys p).length → j ≠ k →
      (s.cycleIter p (j + 1)).flaggedKeys ≠ (s.cycleIter p (k + 1)).flaggedKeys) ∧
    (∀ key, key ∈ s.hitKeys p → ∃ k, k < (s.hitKeys p).length ∧
      (s.cycleIter p (k + 1)).flaggedKeys = [key]) ∧
    (∀ k, (s.cycleIter p (k + (s.hitKeys p).length + 1)).flaggedKeys =
      (s.cycleIter p (k + 1)).flaggedKeys) := by
  have hflag := cycle_flag s p hst hkeys hids hN
  refine ⟨hflag, ?_, ?_, ?_⟩
  · intro j k hj hk hne hcontra
    obtain ⟨kj, hgetj, hflagj⟩ := hflag j
    obtain ⟨kk, hgetk, hflagk⟩ := hflag k
    rw [hflagj, hflagk] at hcontra
    have hkeq : kj = kk := by simpa using hcontra
    subst hkeq
    have hidx : (s.selskip + j) % (s.hitKeys p).length =
        (s.selskip + k) % (s.hitKeys p).length := by
      apply List.get?_inj (Nat.mod_lt _ (Nat.pos_of_ne_zero hN))
        (hitKeys_nodup s p hkeys hids)
      rw [hgetj, hgetk]
    exact cycle_idx_inj s.selskip j k (s.hitKeys p).length hj hk hne hidx
  · intro key hmem
    obtain ⟨m, hgetm⟩ := List.mem_iff_get?.mp hmem
    have hmlt : m < (s.hitKeys p).length := by
      by_contra hge
      push_neg at hge
      rw [List.get?_eq_none.mpr hge] at hgetm
      cases hgetm
    have hpos : 0 < (s.hitKeys p).length := Nat.pos_of_ne_zero hN
    have hi0 : s.selskip % (s.hitKeys p).length < (s.hitKeys p).length :=
      Nat.mod_lt _ hpos
    refine ⟨(m + (s.hitKeys p).length - s.selskip % (s.hitKeys p).length) %
      (s.hitKeys p).length, Nat.mod_lt _ hpos, ?_⟩
    obtain ⟨key', hget', hflag'⟩ := hflag
      ((m + (s.hitKeys p).length - s.selskip % (s.hitKeys p).length) %
        (s.hitKeys p).length)
    have hidx : (s.selskip +
        (m + (s.hitKeys p).length - s.selskip % (s.hitKeys p).length) %
          (s.hitKeys p).length) % (s.hitKeys p).length = m := by
      rw [Nat.add_mod_mod, ← Nat.mod_add_mod]
      have h1 : s.selskip % (s.hitKeys p).length +
          (m + (s.hitKeys p).length - s.selskip % (s.hitKeys p).length) =
          m + (s.hitKeys p).length := by omega
      rw [h1, Nat.add_mod_right, Nat.mod_eq_of_lt hmlt]
    rw [hidx, hgetm] at hget'
    cases hget'
    exact hflag'
  · intro k
    obtain ⟨kj, hgetj, hflagj⟩ := hflag (k + (s.hitKeys p).length)
    obtain ⟨kk, hgetk, hflagk⟩ := hflag k
    have : (s.selskip + (k + (s.hitKeys p).length)) % (s.hitKeys p).length =
        (s.selskip + k) % (s.hitKeys p).length := by
      rw [← Nat.add_assoc, Nat.add_mod_right]
    rw [this, hgetk] at hgetj
    cases hgetj
    rw [hflagj, hflagk]

/-- Witness for C4 on three overlapping edges. -/
theorem skip_cycling_covers_hits_witness :
    (∃ key, (cycleDemo.hitKeys ⟨1, 0⟩).get?
        ((cycleDemo.selskip + 0) % (cycleDemo.hitKeys ⟨1, 0⟩).length) = some key ∧
      (cycleDemo.cycleIter ⟨1, 0⟩ (0 + 1)).flaggedKeys = [key]) ∧
    (cycleDemo.cycleIter ⟨1, 0⟩
        (0 + (cycleDemo.hitKeys ⟨1, 0⟩).length + 1)).flaggedKeys =
      (cycleDemo.cycleIter ⟨1, 0⟩ (0 + 1)).flaggedKeys :=
  ⟨(skip_cycling_covers_hits cycleDemo ⟨1, 0⟩ rfl
      (by unfold nodupKeys keyList; decide) (by unfold nodupIds; decide)
      (by decide)).1 0,
   (skip_cycling_covers_hits cycleDemo ⟨1, 0⟩ rfl
      (by unfold nodupKeys keyList; decide) (by unfold nodupIds; decide)
      (by decide)).2.2.2 0⟩

/-- The vertex order is total. -/
theorem lexLe_total (a b : SSPoint) : SSPoint.lexLe a b = true ∨ SSPoint.lexLe b a = true := by
  simp only [SSPoint.lexLe, Bool.or_eq_true, Bool.and_eq_true, decide_eq_true_eq,
    beq_iff_eq]
  omega

/-- Orientation is idempotent. -/
theorem orient_orient (e : NetEdge) : e.orient.orient = e.orient := by
  by_cases h : SSPoint.lexLe e.src e.dst = true
  · simp [NetEdge.orient, h]
  · have h2 : SSPoint.lexLe e.dst e.src = true := by
      rcases lexLe_total e.src e.dst with hc | hc
      · exact absurd hc h
      · exact hc
    simp [NetEdge.orient, h, h2]

/-- Orientation preserves nondegeneracy. -/
theorem orient_ne (e : NetEdge) (h : ¬e.src = e.dst) : ¬e.orient.src = e.orient.dst := by
  by_cases hle : SSPoint.lexLe e.src e.dst = true
  · simpa [NetEdge.orient, hle] using h
  · simp only [NetEdge.orient, hle, if_false]
    exact fun hc => h hc.symm

/-- Key-deduplication yields keys disjoint from the seen set and pairwise
distinct. -/
theorem dedupKeep_nodup (l : List NetEdge) : ∀ (seen : List (SSPoint × SSPoint)),
    ((dedupKeep seen l).map NetEdge.key).Nodup ∧
    ∀ k ∈ (dedupKeep seen l).map NetEdge.key, k ∉ seen := by
  induction l with
  | nil => intro seen; exact ⟨List.nodup_nil, by simp [dedupKeep]⟩
  | cons e t ih =>
    intro seen
    by_cases hs : seen.contains (e.src, e.dst) = true
    · rw [show dedupKeep seen (e :: t) = dedupKeep seen t from by
        simp only [dedupKeep]; rw [if_pos hs]]
      exact ih seen
    · rw [show dedupKeep seen (e :: t) =
        e :: dedupKeep ((e.src, e.dst) :: seen) t from by
        simp only [dedupKeep]; rw [if_neg hs]]
      obtain ⟨hnd, hns⟩ := ih ((e.src, e.dst) :: seen)
      constructor
      · rw [List.map_cons]
        refine List.nodup_cons.mpr ⟨?_, hnd⟩
        intro hmem
        exact hns _ hmem (by simp [NetEdge.key])
      · intro k hk
        rw [List.map_cons] at hk
        rcases List.mem_cons.mp hk with rfl | hk'
        · simpa [NetEdge.key] using hs
        · have := hns k hk'
          intro hc
          exact this (List.mem_cons_of_mem _ hc)

/-- Key-deduplication is the identity on duplicate-free input disjoint
from the seen set. -/
theorem dedupKeep_eq_self (l : List NetEdge) : ∀ (seen : List (SSPoint × SSPoint)),
    (l.map NetEdge.key).Nodup → (∀ e ∈ l, (e.src, e.dst) ∉ seen) →
    dedupKeep seen l = l := by
  induction l with
  | nil => intro seen _ _; rfl
  | cons e t ih =>
    intro seen hnd hdis
    rw [List.map_cons] at hnd
    have hs : ¬seen.contains (e.src, e.dst) = true := by
      have := hdis e (List.mem_cons_self e t)
      simpa using this
    rw [show dedupKeep seen (e :: t) =
      e :: dedupKeep ((e.src, e.dst) :: seen) t from by
      simp only [dedupKeep]; rw [if_neg hs]]
    congr 1
    refine ih _ (List.nodup_cons.mp hnd).2 ?_
    intro x hx
    intro hmem
    rcases List.mem_cons.mp hmem with hc | hc
    · apply (List.nodup_cons.mp hnd).1
      have : NetEdge.key x = NetEdge.key e := by simpa [NetEdge.key] using hc
      rw [← this]
      exact List.mem_map_of_mem NetEdge.key hx
    · exact hdis x (List.mem_cons_of_mem _ hx) hc

/-- Members of key-deduplication are members of the input. -/
theorem dedupKeep_subset (l : List NetEdge) : ∀ (seen : List (SSPoint × SSPoint)),
    ∀ e ∈ dedupKeep seen l, e ∈ l := by
  induction l with
  | nil => intro seen e he; cases he
  | cons x t ih =>
    intro seen e he
    by_cases hs : seen.contains (x.src, x.dst) = true
    · rw [show dedupKeep seen (x :: t) = dedupKeep seen t from by
        simp only [dedupKeep]; rw [if_pos hs]] at he
      exact List.mem_cons_of_mem x (ih seen e he)
    · rw [show dedupKeep seen (x :: t) =
        x :: dedupKeep ((x.src, x.dst) :: seen) t from by
        simp only [dedupKeep]; rw [if_neg hs]] at he
      rcases List.mem_cons.mp he with rfl | he'
      · exact List.mem_cons_self _ _
      · exact List.mem_cons_of_mem x (ih _ e he')

/-- A normalized list has pairwise-distinct keys. -/
theorem normalize_nodupKeys (l : List NetEdge) : nodupKeys (normalizeEdges l) :=
  (dedupKeep_nodup _ []).1

/-- Members of a normalized list are oriented and nondegenerate. -/
theorem normalize_mem (l : List NetEdge) :
    ∀ e ∈ normalizeEdges l, e.orient = e ∧ ¬e.src = e.dst := by
  intro e he
  have hmem := dedupKeep_subset _ [] e he
  obtain ⟨x, hx, rfl⟩ := List.mem_map.mp hmem
  have hxne : ¬x.src = x.dst := by
    have := (List.mem_filter.mp hx).2
    simpa using this
  exact ⟨orient_orient x, orient_ne x hxne⟩

/-- Normalization fixes any list of oriented nondegenerate edges with
distinct keys. -/
theorem normalize_fix (l : List NetEdge)
    (hmem : ∀ e ∈ l, e.orient = e ∧ ¬e.src = e.dst) (hnd : nodupKeys l) :
    normalizeEdges l = l := by
  unfold normalizeEdges
  have hfil : l.filter (fun e => !(e.src == e.dst)) = l := by
    refine List.filter_eq_self.mpr ?_
    intro e he
    simpa using (hmem e he).2
  rw [hfil]
  have hmap : l.map NetEdge.orient = l := by
    simpa using List.map_congr_left (fun e (he : e ∈ l) => (hmem e he).1)
  rw [hmap]
  exact dedupKeep_eq_self l [] hnd (by simp)

/-- Normalization is idempotent. -/
theorem normalize_idem (l : List NetEdge) :
    normalizeEdges (normalizeEdges l) = normalizeEdges l :=
  normalize_fix _ (normalize_mem l) (normalize_nodupKeys l)

/-- Deduplication never lengthens a list. -/
theorem dedupKeep_length (l : List NetEdge) : ∀ seen,
    (dedupKeep seen l).length ≤ l.length := by
  induction l with
  | nil => intro seen; simp [dedupKeep]
  | cons x t ih =>
    intro seen
    by_cases hs : seen.contains (x.src, x.dst) = true
    · rw [show dedupKeep seen (x :: t) = dedupKeep seen t from by
        simp only [dedupKeep]; rw [if_pos hs]]
      exact Nat.le_succ_of_le (ih seen)
    · rw [show dedupKeep seen (x :: t) =
        x :: dedupKeep ((x.src, x.dst) :: seen) t from by
        simp only [dedupKeep]; rw [if_neg hs]]
      simpa using ih ((x.src, x.dst) :: seen)

/-- Normalization never lengthens a list. -/
theorem normalize_length_le (l : List NetEdge) :
    (normalizeEdges l).length ≤ l.length := by
  unfold normalizeEdges
  calc (dedupEdges ((l.filter (fun e => !(e.src == e.dst))).map NetEdge.orient)).length
      ≤ ((l.filter (fun e => !(e.src == e.dst))).map NetEdge.orient).length :=
        dedupKeep_length _ []
    _ = (l.filter (fun e => !(e.src == e.dst))).length := List.length_map _ _
    _ ≤ l.length := List.length_filter_le _ _

/-- A found merge partner lies in the scanned tail. -/
theorem findMergeSnd_mem (l : List NetEdge) (ports : List SSPoint) (e1 : NetEdge) :
    ∀ (t : List NetEdge) (e2 : NetEdge), findMergeSnd l ports e1 t = some e2 → e2 ∈ t := by
  intro t
  induction t with
  | nil => intro e2 h; simp [findMergeSnd] at h
  | cons x xs ih =>
    intro e2 h
    simp only [findMergeSnd] at h
    by_cases hm : mergeablePair l ports e1 x = true
    · rw [if_pos hm] at h
      injection h with h
      exact h ▸ List.mem_cons_self x xs
    · rw [if_neg hm] at h
      exact List.mem_cons_of_mem _ (ih e2 h)

/-- The first mergeable pair splits the scanned list around its first
component, with the partner strictly later. -/
theorem findMergeFst_shape (l : List NetEdge) (ports : List SSPoint) :
    ∀ (t : List NetEdge) (e1 e2 : NetEdge), findMergeFst l ports t = some (e1, e2) →
    ∃ pre post, t = pre ++ e1 :: post ∧ e2 ∈ post := by
  intro t
  induction t with
  | nil => intro e1 e2 h; simp [findMergeFst] at h
  | cons x xs ih =>
    intro e1 e2 h
    cases hsnd : findMergeSnd l ports x xs with
    | some e2' =>
      rw [show findMergeFst l ports (x :: xs) = some (x, e2') from by
        simp only [findMergeFst]; rw [hsnd]] at h
      injection h with h
      have h1 : x = e1 := congrArg Prod.fst h
      have h2 : e2' = e2 := congrArg Prod.snd h
      subst h1
      subst h2
      exact ⟨[], xs, rfl, findMergeSnd_mem l ports x xs e2' hsnd⟩
    | none =>
      rw [show findMergeFst l ports (x :: xs) = findMergeFst l ports xs from by
        simp only [findMergeFst]; rw [hsnd]] at h
      obtain ⟨pre, post, heq, hmem⟩ := ih e1 e2 h
      exact ⟨x :: pre, post, by rw [heq]; rfl, hmem⟩

/-- An element strictly after the erased occurrence survives `List.erase`. -/
theorem mem_erase_of_later (e1 e2 : NetEdge) :
    ∀ (pre post : List NetEdge), e2 ∈ post → e2 ∈ ((pre ++ e1 :: post).erase e1) := by
  intro pre
  induction pre with
  | nil =>
    intro post hmem
    rw [show (([] : List NetEdge) ++ e1 :: post).erase e1 = post from by
      simp [List.erase_cons_head]]
    exact hmem
  | cons x xs ih =>
    intro post hmem
    by_cases hx : x = e1
    · rw [hx]
      rw [show ((e1 :: xs) ++ e1 :: post).erase e1 = xs ++ e1 :: post from by
        simp [List.erase_cons_head]]
      exact List.mem_append_right xs (List.mem_cons_of_mem e1 hmem)
    · rw [show ((x :: xs) ++ e1 :: post).erase e1 = x :: ((xs ++ e1 :: post).erase e1) from by
        simp [List.erase_cons_tail, hx]]
      exact List.mem_cons_of_mem x (ih post hmem)

/-- A merge rewrite strictly shortens the edge list. -/
theorem mergeOnce_length (ports : List SSPoint) (l l' : List NetEdge)
    (h : mergeOnce ports l = some l') : l'.length < l.length := by
  unfold mergeOnce at h
  cases hf : findMergeFst l ports l with
  | none => rw [hf] at h; simp at h
  | some p =>
    obtain ⟨e1, e2⟩ := p
    rw [hf] at h
    injection h with h
    obtain ⟨pre, post, heq, hmem⟩ := findMergeFst_shape l ports l e1 e2 hf
    have he1 : e1 ∈ l := by
      rw [heq]; exact List.mem_append_right pre (List.mem_cons_self e1 post)
    have he2 : e2 ∈ l.erase e1 := by
      rw [heq]; exact mem_erase_of_later e1 e2 pre post hmem
    have hlen1 : (l.erase e1).length = l.length - 1 := List.length_erase_of_mem he1
    have hlen2 : ((l.erase e1).erase e2).length = (l.erase e1).length - 1 :=
      List.length_erase_of_mem he2
    have hpos : 0 < (l.erase e1).length := List.length_pos_of_mem he2
    have hle : l'.length ≤ ((l.erase e1).erase e2).length + 1 := by
      calc l'.length
          = (normalizeEdges (((l.erase e1).erase e2) ++ [mergedEdge e1 e2])).length := by
            rw [← h]
        _ ≤ (((l.erase e1).erase e2) ++ [mergedEdge e1 e2]).length := normalize_length_le _
        _ = ((l.erase e1).erase e2).length + 1 := by simp
    omega

/-- A merge rewrite produces a normal-form list. -/
theorem mergeOnce_nf (ports : List SSPoint) (l l' : List NetEdge)
    (h : mergeOnce ports l = some l') : normalizeEdges l' = l' := by
  unfold mergeOnce at h
  cases hf : findMergeFst l ports l with
  | none => rw [hf] at h; simp at h
  | some p =>
    obtain ⟨e1, e2⟩ := p
    rw [hf] at h
    injection h with h
    rw [← h]
    exact normalize_idem _

/-- `pruneLoop` at adequate fuel reaches a merge-free, normal-form list. -/
theorem pruneLoop_fix (ports : List SSPoint) :
    ∀ (fuel : Nat) (l : List NetEdge), l.length < fuel → normalizeEdges l = l →
    mergeOnce ports (pruneLoop ports fuel l) = none ∧
    normalizeEdges (pruneLoop ports fuel l) = pruneLoop ports fuel l := by
  intro fuel
  induction fuel with
  | zero => intro l h _; exact absurd h (Nat.not_lt_zero _)
  | succ f ih =>
    intro l hlt hnf
    cases hm : mergeOnce ports l with
    | none =>
      rw [show pruneLoop ports (f + 1) l = l from by
        simp only [pruneLoop]; rw [hm]]
      exact ⟨hm, hnf⟩
    | some l' =>
      rw [show pruneLoop ports (f + 1) l = pruneLoop ports f l' from by
        simp only [pruneLoop]; rw [hm]]
      have hlen := mergeOnce_length ports l l' hm
      exact ih l' (by omega) (mergeOnce_nf ports l l' hm)

/-- Filtered lengths agree across a relation respected by the
predicates. -/
theorem filter_length_congr {α β : Type} (R : α → β → Prop) (p : α → Bool) (q : β → Bool)
    (hpq : ∀ a b, R a b → p a = q b) :
    ∀ {m : List α} {r : List β}, List.Forall₂ R m r →
    (m.filter p).length = (r.filter q).length := by
  intro m r hF
  induction hF with
  | nil => rfl
  | cons h1 h2 ih =>
    rename_i a b as bs
    rw [List.filter_cons, List.filter_cons, hpq a b h1]
    by_cases hq : q b = true
    · rw [if_pos hq, if_pos hq]
      simpa using ih
    · rw [if_neg hq, if_neg hq]
      exact ih

/-- Vertex degrees agree on geometrically identical edge lists. -/
theorem degreeAt_congr {m r : List NetEdge} (hF : List.Forall₂ eqk m r) (v : SSPoint) :
    degreeAt m v = degreeAt r v :=
  filter_length_congr eqk _ _ (fun _ _ hab => by rw [hab.1, hab.2]) hF

/-- The shared vertex depends only on the edges' endpoints. -/
theorem sharedVertex_congr {a a' b b' : NetEdge} (ha : eqk a a') (hb : eqk b b') :
    sharedVertex a b = sharedVertex a' b' := by
  unfold sharedVertex
  rw [ha.1, ha.2, hb.1, hb.2]

/-- Collinearity depends only on the edges' endpoints. -/
theorem collinearPair_congr {a a' b b' : NetEdge} (ha : eqk a a') (hb : eqk b b') :
    collinearPair a b = collinearPair a' b' := by
  unfold collinearPair
  rw [ha.1, ha.2, hb.1, hb.2]

/-- The merge guard depends only on endpoint geometry. -/
theorem mergeablePair_congr {m r : List NetEdge} (hF : List.Forall₂ eqk m r)
    (ports : List SSPoint) {a a' b b' : NetEdge} (ha : eqk a a') (hb : eqk b b') :
    mergeablePair m ports a b = mergeablePair r ports a' b' := by
  unfold mergeablePair
  rw [sharedVertex_congr ha hb]
  cases sharedVertex a' b' with
  | none => rfl
  | some v =>
    show (collinearPair a b && degreeAt m v == 2 && !(ports.contains v)) =
      (collinearPair a' b' && degreeAt r v == 2 && !(ports.contains v))
    rw [collinearPair_congr ha hb, degreeAt_congr hF v]

/-- A merge-partner miss transfers along geometric identity. -/
theorem findMergeSnd_none_congr {m r : List NetEdge} (hF : List.Forall₂ eqk m r)
    (ports : List SSPoint) {a a' : NetEdge} (ha : eqk a a') :
    ∀ {t t' : List NetEdge}, List.Forall₂ eqk t t' →
    findMergeSnd m ports a t = none → findMergeSnd r ports a' t' = none := by
  intro t t' hT
  induction hT with
  | nil => intro _; rfl
  | cons h1 h2 ih =>
    rename_i x x' xs xs'
    intro hnone
    simp only [findMergeSnd] at hnone ⊢
    rw [← mergeablePair_congr hF ports ha h1]
    by_cases hmp : mergeablePair m ports a x = true
    · rw [if_pos hmp] at hnone
      exact absurd hnone (by simp)
    · rw [if_neg hmp] at hnone
      rw [if_neg hmp]
      exact ih hnone

/-- A merge-pair miss transfers along geometric identity. -/
theorem findMergeFst_none_congr {m r : List NetEdge} (hF : List.Forall₂ eqk m r)
    (ports : List SSPoint) :
    ∀ {t t' : List NetEdge}, List.Forall₂ eqk t t' →
    findMergeFst m ports t = none → findMergeFst r ports t' = none := by
  intro t t' hT
  induction hT with
  | nil => intro _; rfl
  | cons h1 h2 ih =>
    rename_i x x' xs xs'
    intro hnone
    cases hs : findMergeSnd m ports x xs with
    | some e2 =>
      rw [show findMergeFst m ports (x :: xs) = some (x, e2) from by
        simp only [findMergeFst]; rw [hs]] at hnone
      exact absurd hnone (by simp)
    | none =>
      rw [show findMergeFst m ports (x :: xs) = findMergeFst m ports xs from by
        simp only [findMergeFst]; rw [hs]] at hnone
      rw [show findMergeFst r ports (x' :: xs') = findMergeFst r ports xs' from by
        simp only [findMergeFst]; rw [findMergeSnd_none_congr hF ports h1 h2 hs]]
      exact ih hnone

/-- Merge-freeness transfers along geometric identity. -/
theorem mergeOnce_none_congr {m r : List NetEdge} (hF : List.Forall₂ eqk m r)
    (ports : List SSPoint) (h : mergeOnce ports m = none) : mergeOnce ports r = none := by
  unfold mergeOnce at h ⊢
  cases hf : findMergeFst m ports m with
  | some p =>
    obtain ⟨e1, e2⟩ := p
    rw [hf] at h
    simp at h
  | none =>
    rw [findMergeFst_none_congr hF ports hF hf]

/-- Edge keys agree on geometrically identical edge lists. -/
theorem keyList_congr : ∀ {m r : List NetEdge}, List.Forall₂ eqk m r →
    keyList m = keyList r := by
  intro m r hF
  induction hF with
  | nil => rfl
  | cons h1 h2 ih =>
    rename_i a b as bs
    show NetEdge.key a :: keyList as = NetEdge.key b :: keyList bs
    rw [ih, show NetEdge.key a = NetEdge.key b from by
      unfold NetEdge.key; rw [h1.1, h1.2]]

/-- Every element of the right list of a `Forall₂` has a related witness on
the left. -/
theorem forall2_mem_right {R : NetEdge → NetEdge → Prop} :
    ∀ {m r : List NetEdge}, List.Forall₂ R m r → ∀ x ∈ r, ∃ e ∈ m, R e x := by
  intro m r hF
  induction hF with
  | nil => intro x hx; simp at hx
  | cons h1 h2 ih =>
    rename_i a b as bs
    intro x hx
    rcases List.mem_cons.mp hx with rfl | hx'
    · exact ⟨a, List.mem_cons_self a as, h1⟩
    · obtain ⟨e, he, hR⟩ := ih x hx'
      exact ⟨e, List.mem_cons_of_mem a he, hR⟩

/-- Orientedness and nondegeneracy transfer along geometric identity. -/
theorem eqk_orient_transfer {e x : NetEdge} (h : eqk e x)
    (ho : e.orient = e ∧ ¬e.src = e.dst) : x.orient = x ∧ ¬x.src = x.dst := by
  obtain ⟨h1, h2⟩ := h
  obtain ⟨ho1, hne⟩ := ho
  have hlex : SSPoint.lexLe e.src e.dst = true := by
    by_contra hlex
    have hsw : ({ e with src := e.dst, dst := e.src } : NetEdge) = e := by
      simpa [NetEdge.orient, hlex] using ho1
    exact hne (congrArg NetEdge.src hsw).symm
  have hlex' : SSPoint.lexLe x.src x.dst = true := by
    rw [← h1, ← h2]
    exact hlex
  constructor
  · simp [NetEdge.orient, hlex']
  · rw [← h1, ← h2]
    exact hne

/-- Relabeling preserves the geometry of each edge. -/
theorem relabelGo_forall2 (l : List NetEdge) (cs : List NetComp) :
    ∀ (k : Nat) (t : List NetEdge), List.Forall₂ eqk t (relabelGo l cs k t) := by
  intro k t
  induction t generalizing k with
  | nil => exact List.Forall₂.nil
  | cons x xs ih => exact List.Forall₂.cons ⟨rfl, rfl⟩ (ih (k + 1))

/-- Position `j` of the relabeled list. -/
theorem relabelGo_get (l : List NetEdge) (cs : List NetComp) :
    ∀ (k : Nat) (t : List NetEdge) (j : Nat),
    (relabelGo l cs k t).get? j = (t.get? j).map (fun e =>
      { e with label := match relabelAt l cs (k + j) with
          | some lbl => some lbl
          | none => e.label }) := by
  intro k t
  induction t generalizing k with
  | nil => intro j; rfl
  | cons x xs ih =>
    intro j
    cases j with
    | zero => simp [relabelGo]
    | succ j' =>
      rw [show (relabelGo l cs k (x :: xs)).get? (j' + 1) =
        (relabelGo l cs (k + 1) xs).get? j' from rfl]
      rw [ih (k + 1) j']
      rw [show (x :: xs).get? (j' + 1) = xs.get? j' from rfl]
      rw [show k + 1 + j' = k + (j' + 1) from by omega]

/-- Relabeling leaves a list unchanged when each assignment reproduces the
edge's existing label. -/
theorem relabelGo_eq_self (l : List NetEdge) (cs : List NetComp) :
    ∀ (k : Nat) (t : List NetEdge),
    (∀ j e, t.get? j = some e →
      (match relabelAt l cs (k + j) with
        | some lbl => some lbl
        | none => e.label) = e.label) →
    relabelGo l cs k t = t := by
  intro k t
  induction t generalizing k with
  | nil => intro _; rfl
  | cons x xs ih =>
    intro h
    have hx : (match relabelAt l cs (k + 0) with
        | some lbl => some lbl
        | none => x.label) = x.label := h 0 x rfl
    rw [Nat.add_zero] at hx
    show ({ x with label := match relabelAt l cs k with
        | some lbl => some lbl
        | none => x.label } : NetEdge) :: relabelGo l cs (k + 1) xs = x :: xs
    rw [hx]
    rw [ih (k + 1) (fun j e he => by
      have h2 := h (j + 1) e he
      rwa [show k + (j + 1) = k + 1 + j from by omega] at h2)]

/-- The component scan depends only on endpoint geometry. -/
theorem buildCompsGo_congr :
    ∀ {t t' : List NetEdge}, List.Forall₂ eqk t t' →
    ∀ (i : Nat) (cs : List NetComp), buildCompsGo i t cs = buildCompsGo i t' cs := by
  intro t t' hT
  induction hT with
  | nil => intro i cs; rfl
  | cons h1 h2 ih =>
    rename_i x x' xs xs'
    intro i cs
    show buildCompsGo (i + 1) xs (compsInsert cs [x.src, x.dst] i) =
      buildCompsGo (i + 1) xs' (compsInsert cs [x'.src, x'.dst] i)
    rw [h1.1, h1.2]
    exact ih (i + 1) _

/-- The component lists of geometrically identical edge lists coincide. -/
theorem buildComps_congr {m r : List NetEdge} (hF : List.Forall₂ eqk m r) :
    buildComps m = buildComps r := buildCompsGo_congr hF 0 []

/-- Membership in the index union folded over a component list. -/
theorem mem_foldl_idxs :
    ∀ (ts : List NetComp) (init : List Nat) (j : Nat),
    (j ∈ ts.foldl (fun acc c => acc ++ c.idxs) init) ↔
      j ∈ init ∨ ∃ c ∈ ts, j ∈ c.idxs := by
  intro ts
  induction ts with
  | nil => intro init j; simp
  | cons c cs ih =>
    intro init j
    rw [List.foldl_cons, ih]
    simp only [List.mem_append, List.mem_cons]
    constructor
    · rintro ((hj | hj) | ⟨c', hc', hj⟩)
      · exact Or.inl hj
      · exact Or.inr ⟨c, Or.inl rfl, hj⟩
      · exact Or.inr ⟨c', Or.inr hc', hj⟩
    · rintro (hj | ⟨c', hc' | hc', hj⟩)
      · exact Or.inl (Or.inl hj)
      · exact Or.inl (Or.inr (hc' ▸ hj))
      · exact Or.inr ⟨c', hc', hj⟩

/-- Index-disjointness of components is a symmetric relation. -/
theorem disj_symm : Symmetric (fun c1 c2 : NetComp => ∀ j, j ∈ c1.idxs → j ∉ c2.idxs) :=
  fun _ _ h j hj hj' => h j hj' hj

/-- One fold step of the component scan preserves the scan invariants. -/
theorem compsInsert_inv (i : Nat) (cs : List NetComp) (vs : List SSPoint)
    (h : compsInv i cs) : compsInv (i + 1) (compsInsert cs vs i) := by
  obtain ⟨h1, h2, h3⟩ := h
  simp only [compsInsert]
  refine ⟨?_, ?_, ?_⟩
  · intro c hc
    rcases List.mem_append.mp hc with hc | hc
    · exact h1 c (List.mem_of_mem_filter hc)
    · rw [List.mem_singleton.mp hc]
      simp
  · intro c hc j hj
    rcases List.mem_append.mp hc with hc | hc
    · exact Nat.lt_succ_of_lt (h2 c (List.mem_of_mem_filter hc) j hj)
    · rw [List.mem_singleton.mp hc] at hj
      rcases List.mem_append.mp hj with hj | hj
      · rw [mem_foldl_idxs] at hj
        rcases hj with hj | ⟨c', hc', hj⟩
        · simp at hj
        · exact Nat.lt_succ_of_lt (h2 c' (List.mem_of_mem_filter hc') j hj)
      · rw [List.mem_singleton.mp hj]
        exact Nat.lt_succ_self i
  · rw [List.pairwise_append]
    refine ⟨List.Pairwise.sublist (List.filter_sublist cs) h3, List.pairwise_singleton _ _, ?_⟩
    intro c hc c' hc'
    rw [List.mem_singleton.mp hc']
    intro j hj hjnew
    rcases List.mem_append.mp hjnew with hj2 | hj2
    · rw [mem_foldl_idxs] at hj2
      rcases hj2 with hj2 | ⟨c2, hc2, hj2⟩
      · simp at hj2
      · have hcm : c ∈ cs := List.mem_of_mem_filter hc
        have hc2m : c2 ∈ cs := List.mem_of_mem_filter hc2
        have hne : c ≠ c2 := by
          intro heq
          have hpc := List.of_mem_filter hc
          have hpc2 := List.of_mem_filter hc2
          rw [heq] at hpc
          simp at hpc hpc2
          obtain ⟨x, hx, hxv⟩ := hpc2
          exact hpc x hx hxv
        exact (List.Pairwise.forall disj_symm h3 hcm hc2m hne) j hj hj2
    · have hji := List.mem_singleton.mp hj2
      subst hji
      exact Nat.lt_irrefl j (h2 c (List.mem_of_mem_filter hc) j hj)

/-- The component scan preserves the scan invariants. -/
theorem buildCompsGo_inv :
    ∀ (t : List NetEdge) (i : Nat) (cs : List NetComp), compsInv i cs →
    compsInv (i + t.length) (buildCompsGo i t cs) := by
  intro t
  induction t with
  | nil => intro i cs h; simpa using h
  | cons e t ih =>
    intro i cs h
    have hrec := ih (i + 1) (compsInsert cs [e.src, e.dst] i) (compsInsert_inv i cs _ h)
    rw [show buildCompsGo i (e :: t) cs =
      buildCompsGo (i + 1) t (compsInsert cs [e.src, e.dst] i) from rfl]
    rw [show i + (e :: t).length = (i + 1) + t.length from by
      simp only [List.length_cons]; omega]
    exact hrec

/-- The finished component list satisfies the scan invariants. -/
theorem buildComps_inv (m : List NetEdge) : compsInv m.length (buildComps m) := by
  have h0 : compsInv 0 ([] : List NetComp) :=
    ⟨by intro c hc; simp at hc, by intro c hc; simp at hc, List.Pairwise.nil⟩
  have := buildCompsGo_inv m 0 [] h0
  simpa using this

/-- `find?` returns the unique element satisfying the predicate. -/
theorem find_first_eq {α : Type} (p : α → Bool) :
    ∀ (l : List α) (x : α), x ∈ l → p x = true → (∀ y ∈ l, p y = true → y = x) →
    l.find? p = some x := by
  intro l
  induction l with
  | nil => intro x hx _ _; simp at hx
  | cons a t ih =>
    intro x hx hpx huniq
    by_cases hpa : p a = true
    · have hax : a = x := huniq a (List.mem_cons_self a t) hpa
      rw [show (a :: t).find? p = some a from by rw [List.find?_cons, hpa], hax]
    · rcases List.mem_cons.mp hx with rfl | hx'
      · exact absurd hpx hpa
      · rw [show (a :: t).find? p = t.find? p from by
          rw [List.find?_cons, show p a = false from by
            cases hv : p a with
            | true => exact absurd hv hpa
            | false => rfl]]
        exact ih x hx' hpx (fun y hy => huniq y (List.mem_cons_of_mem a hy))

/-- After one relabel pass, every edge of a component carries the
component's label. -/
theorem relabel_label_at (m : List NetEdge) (c : NetComp)
    (hc : c ∈ buildComps m) (i : Nat) (hi : i ∈ c.idxs) :
    ((relabelEdges m).get? i).bind (fun e => e.label) = some (compLabel m c) := by
  obtain ⟨inv1, inv2, inv3⟩ := buildComps_inv m
  have hfind : (buildComps m).find? (fun c' => c'.idxs.contains i) = some c := by
    apply find_first_eq _ _ c hc (by simpa using hi)
    intro y hy hpy
    by_contra hne
    exact (List.Pairwise.forall disj_symm inv3 hy hc hne) i (by simpa using hpy) hi
  have hat : relabelAt m (buildComps m) i = some (compLabel m c) := by
    unfold relabelAt
    rw [hfind]
  have hilt : i < m.length := inv2 c hc i hi
  cases hme : m.get? i with
  | none =>
    have := List.get?_eq_none.mp hme
    omega
  | some e =>
    rw [show relabelEdges m = relabelGo m (buildComps m) 0 m from rfl,
      relabelGo_get m (buildComps m) 0 m i, hme]
    show (match relabelAt m (buildComps m) (0 + i) with
      | some lbl => some lbl
      | none => e.label) = some (compLabel m c)
    rw [Nat.zero_add, hat]

/-- Component labels are stable under one relabel pass. -/
theorem relabel_compLabel (m : List NetEdge) (c : NetComp) (hc : c ∈ buildComps m) :
    compLabel (relabelEdges m) c = compLabel m c := by
  obtain ⟨inv1, _, _⟩ := buildComps_inv m
  obtain ⟨i0, rest, hidx⟩ : ∃ i0 rest, c.idxs = i0 :: rest := by
    cases hx : c.idxs with
    | nil => exact absurd hx (inv1 c hc)
    | cons a b => exact ⟨a, b, rfl⟩
  have hhead : ((c.idxs.filterMap
      (fun i => ((relabelEdges m).get? i).bind (fun e => e.label))).head?) =
      some (compLabel m c) := by
    rw [hidx]
    simp only [List.filterMap_cons]
    rw [relabel_label_at m c hc i0 (by rw [hidx]; exact List.mem_cons_self i0 rest)]
    rfl
  conv_lhs => unfold compLabel
  rw [hhead]

/-- The component relabeling pass is idempotent. -/
theorem relabel_idem (m : List NetEdge) :
    relabelEdges (relabelEdges m) = relabelEdges m := by
  have hF : List.Forall₂ eqk m (relabelEdges m) := relabelGo_forall2 m (buildComps m) 0 m
  have hcs2 : buildComps (relabelEdges m) = buildComps m := (buildComps_congr hF).symm
  show relabelGo (relabelEdges m) (buildComps (relabelEdges m)) 0 (relabelEdges m) =
    relabelEdges m
  rw [hcs2]
  apply relabelGo_eq_self
  intro j e he
  cases hfind : (buildComps m).find? (fun c' => c'.idxs.contains j) with
  | none =>
    rw [show relabelAt (relabelEdges m) (buildComps m) (0 + j) = none from by
      unfold relabelAt; rw [Nat.zero_add, hfind]]
  | some c =>
    have hcmem : c ∈ buildComps m := List.mem_of_find?_eq_some hfind
    have hj : j ∈ c.idxs := by
      have := List.find?_some hfind
      simpa using this
    rw [show relabelAt (relabelEdges m) (buildComps m) (0 + j) =
        some (compLabel (relabelEdges m) c) from by
      unfold relabelAt; rw [Nat.zero_add, hfind]]
    rw [relabel_compLabel m c hcmem]
    have hl := relabel_label_at m c hcmem j hj
    rw [he] at hl
    show some (compLabel m c) = e.label
    exact hl.symm

/-- Relabeling a merge-free normal-form edge list is a `prune` fixpoint. -/
theorem prune_fix_aux (ports : List SSPoint) (m : List NetEdge)
    (hNFm : normalizeEdges m = m) (hmrg : mergeOnce ports m = none) :
    Nets.prune ⟨relabelEdges m⟩ ports = ⟨relabelEdges m⟩ := by
  have hF : List.Forall₂ eqk m (relabelEdges m) := relabelGo_forall2 m (buildComps m) 0 m
  have hmemr : ∀ x ∈ relabelEdges m, x.orient = x ∧ ¬x.src = x.dst := by
    intro x hx
    obtain ⟨e, he, hR⟩ := forall2_mem_right hF x hx
    exact eqk_orient_transfer hR (normalize_mem m e (by rw [hNFm]; exact he))
  have hndr : nodupKeys (relabelEdges m) := by
    have h1 := normalize_nodupKeys m
    rw [hNFm] at h1
    unfold nodupKeys at h1 ⊢
    rwa [← keyList_congr hF]
  have hNFr : normalizeEdges (relabelEdges m) = relabelEdges m :=
    normalize_fix _ hmemr hndr
  have hmrgr : mergeOnce ports (relabelEdges m) = none := mergeOnce_none_congr hF ports hmrg
  show (⟨relabelEdges (pruneLoop ports
      ((normalizeEdges (relabelEdges m)).length + 1)
      (normalizeEdges (relabelEdges m)))⟩ : Nets) = ⟨relabelEdges m⟩
  rw [hNFr]
  rw [show pruneLoop ports ((relabelEdges m).length + 1) (relabelEdges m) =
      relabelEdges m from by
    simp only [pruneLoop]; rw [hmrgr]]
  rw [relabel_idem m]

/-- C1. The prune pass of the persistent net graph is idempotent: for every
graph and every fixed device-port list, pruning an already-pruned graph
returns it unchanged — the collinear merge rewriting has reached a
fixpoint, the canonical edge form is stable, and the per-component
relabeling reproduces every label (`Nets::prune`, invoked through
`Schematic::prune_nets`, schematic.rs:302-304). -/
theorem prune_idempotent (n : Nets) (ports : List SSPoint) :
    (n.prune ports).prune ports = n.prune ports := by
  obtain ⟨hmrg, hNFm⟩ := pruneLoop_fix ports ((normalizeEdges n.edges).length + 1)
    (normalizeEdges n.edges) (Nat.lt_succ_self _) (normalize_idem n.edges)
  have h1 : n.prune ports = ⟨relabelEdges (pruneLoop ports
      ((normalizeEdges n.edges).length + 1) (normalizeEdges n.edges))⟩ := rfl
  rw [h1]
  exact prune_fix_aux ports _ hNFm hmrg

end Circe
